import Mathlib

/-!
# termkey: a shallow embedding of the incremental byte-to-key decoder

The development follows `termkey.go`:

* `utf8.first`, `utf8.acceptRanges`, `utf8.FullRune`, `utf8.DecodeRune` model the two functions of
  Go's `unicode/utf8` package that `bytesToKey` calls (the standard library is not part of the
  repository; the model follows its implementation table by table);
* `bytesToKey` is the sequence matcher;
* `TermKey`, `NewTermKey`, `ReadKey` are the decoder and its read loop;
* `keysRead` is the loop of `TestKeyPresses`: successive `ReadKey` calls until the first error.

Bytes and runes are natural numbers. A byte is a number below 256; every rune that occurs is below
`2 ^ 21`, so no 32-bit operation of the source can overflow.
-/

namespace utf8

/-- The rune U+FFFD, which `bytesToKey` also uses as its "incomplete" sentinel. -/
def RuneError : Nat := 0xFFFD

def MaxRune : Nat := 0x10FFFF
def surrogateMin : Nat := 0xD800
def surrogateMax : Nat := 0xDFFF

def tx : Nat := 0x80
def t2 : Nat := 0xC0
def t3 : Nat := 0xE0
def t4 : Nat := 0xF0

def maskx : Nat := 0x3F
def mask2 : Nat := 0x1F
def mask3 : Nat := 0x0F
def mask4 : Nat := 0x07

def rune1Max : Nat := 2 ^ 7 - 1
def rune2Max : Nat := 2 ^ 11 - 1
def rune3Max : Nat := 2 ^ 16 - 1

def locb : Nat := 0x80
def hicb : Nat := 0xBF

/-- Entry kind: invalid first byte, size 1. -/
def xx : Nat := 0xF1
/-- Entry kind: ASCII, size 1. -/
def as : Nat := 0xF0
def s1 : Nat := 0x02
def s2 : Nat := 0x13
def s3 : Nat := 0x03
def s4 : Nat := 0x23
def s5 : Nat := 0x34
def s6 : Nat := 0x04
def s7 : Nat := 0x44

/-- The table `first` of `unicode/utf8`, information about the first byte of an encoding, written
by ranges of the index: `0x00-0x7F` are `as`, `0x80-0xC1` are `xx`, `0xC2-0xDF` are `s1`, `0xE0` is
`s2`, `0xE1-0xEC` are `s3`, `0xED` is `s4`, `0xEE-0xEF` are `s3`, `0xF0` is `s5`, `0xF1-0xF3` are
`s6`, `0xF4` is `s7` and `0xF5-0xFF` are `xx`. -/
def first (b : Nat) : Nat :=
  if b < 0x80 then as
  else if b < 0xC2 then xx
  else if b < 0xE0 then s1
  else if b = 0xE0 then s2
  else if b < 0xED then s3
  else if b = 0xED then s4
  else if b < 0xF0 then s3
  else if b = 0xF0 then s5
  else if b < 0xF4 then s6
  else if b = 0xF4 then s7
  else xx

/-- The table `acceptRanges` of `unicode/utf8`: the range `(lo, hi)` allowed for the second byte.
Entries 5 to 15 of the Go array are zero-valued. -/
def acceptRanges (i : Nat) : Nat × Nat :=
  match i with
  | 0 => (locb, hicb)
  | 1 => (0xA0, hicb)
  | 2 => (locb, 0x9F)
  | 3 => (0x90, hicb)
  | 4 => (locb, 0x8F)
  | _ => (0, 0)

/-- Go's `utf8.FullRune`: do the bytes in `p` begin with a full encoding of a rune? An invalid
encoding counts as a full rune, since it converts to a width-1 error rune. -/
def FullRune (p : List Nat) : Bool :=
  let n := p.length
  if n = 0 then false
  else
    let x := first (p.getD 0 0)
    if n ≥ x &&& 7 then true
    else
      let accept := acceptRanges (x >>> 4)
      if n > 1 ∧ (p.getD 1 0 < accept.1 ∨ accept.2 < p.getD 1 0) then true
      else if n > 2 ∧ (p.getD 2 0 < locb ∨ hicb < p.getD 2 0) then true
      else false

/-- Go's `utf8.DecodeRune`: the first rune of `p` and its width in bytes; `(RuneError, 0)` for the
empty input and `(RuneError, 1)` for an invalid encoding. The source's branch-free
`mask := rune(x) << 31 >> 31` is all ones exactly when `x` is odd, that is when `x = xx`. -/
def DecodeRune (p : List Nat) : Nat × Nat :=
  let n := p.length
  if n < 1 then (RuneError, 0)
  else
    let p0 := p.getD 0 0
    let x := first p0
    if x ≥ as then
      let mask := if (x <<< 31) % 2 ^ 32 ≥ 2 ^ 31 then 0xFFFFFFFF else 0
      ((p0 &&& (0xFFFFFFFF - mask)) ||| (RuneError &&& mask), 1)
    else
      let sz := x &&& 7
      let accept := acceptRanges (x >>> 4)
      if n < sz then (RuneError, 1)
      else
        let b1 := p.getD 1 0
        if b1 < accept.1 ∨ accept.2 < b1 then (RuneError, 1)
        else if sz ≤ 2 then (((p0 &&& mask2) <<< 6) ||| (b1 &&& maskx), 2)
        else
          let b2 := p.getD 2 0
          if b2 < locb ∨ hicb < b2 then (RuneError, 1)
          else if sz ≤ 3 then
            (((p0 &&& mask3) <<< 12) ||| ((b1 &&& maskx) <<< 6) ||| (b2 &&& maskx), 3)
          else
            let b3 := p.getD 3 0
            if b3 < locb ∨ hicb < b3 then (RuneError, 1)
            else
              (((p0 &&& mask4) <<< 18) ||| ((b1 &&& maskx) <<< 12) ||| ((b2 &&& maskx) <<< 6)
                ||| (b3 &&& maskx), 4)

/-- Go's `utf8.AppendRune(nil, r)`: the UTF-8 encoding of `r`; a rune out of range or a surrogate
is encoded as `RuneError`. -/
def EncodeRune (r : Nat) : List Nat :=
  if r ≤ rune1Max then [r]
  else if r ≤ rune2Max then [t2 ||| (r >>> 6) % 256, tx ||| (r % 256 &&& maskx)]
  else if r > MaxRune ∨ (surrogateMin ≤ r ∧ r ≤ surrogateMax) then [0xEF, 0xBF, 0xBD]
  else if r ≤ rune3Max then
    [t3 ||| (r >>> 12) % 256, tx ||| ((r >>> 6) % 256 &&& maskx), tx ||| (r % 256 &&& maskx)]
  else
    [t4 ||| (r >>> 18) % 256, tx ||| ((r >>> 12) % 256 &&& maskx),
      tx ||| ((r >>> 6) % 256 &&& maskx), tx ||| (r % 256 &&& maskx)]

end utf8

/-! ## Key constants -/

def KeyTab : Nat := 9
def KeyEnter : Nat := 13
def KeyEscape : Nat := 27
def KeyBackspace : Nat := 127
def KeyUnknown : Nat := 0xd800 + 4
def KeyUp : Nat := 0xd800 + 5
def KeyDown : Nat := 0xd800 + 6
def KeyLeft : Nat := 0xd800 + 7
def KeyRight : Nat := 0xd800 + 8
def KeyAltLeft : Nat := 0xd800 + 9
def KeyAltRight : Nat := 0xd800 + 10
def KeyHome : Nat := 0xd800 + 11
def KeyEnd : Nat := 0xd800 + 12
def KeyDeleteWord : Nat := 0xd800 + 13
def KeyDeleteLine : Nat := 0xd800 + 14
def KeyClearScreen : Nat := 0xd800 + 15
def KeyPasteStart : Nat := 0xd800 + 16
def KeyPasteEnd : Nat := 0xd800 + 17
def KeyTabOut : Nat := 0xd800 + 18
def KeyDel : Nat := 0xd800 + 19

/-- The start marker of a bracketed paste, `ESC [ 2 0 0 ~`. -/
def pasteStart : List Nat := [KeyEscape, 91, 50, 48, 48, 126]
/-- The end marker of a bracketed paste, `ESC [ 2 0 1 ~`. -/
def pasteEnd : List Nat := [KeyEscape, 91, 50, 48, 49, 126]

/-! ## The sequence matcher -/

/-- The test of the final loop of `bytesToKey`: `c` is in `a-z`, `A-Z` or is `~`. -/
def isTerminator (c : Nat) : Bool :=
  decide ((c ≥ 97 ∧ c ≤ 122) ∨ (c ≥ 65 ∧ c ≤ 90) ∨ c = 126)

/-- The final loop of `bytesToKey`, `for i, c := range b[0:]`: the bytes after the first
terminator, `b[i+1:]`, or `none` when the loop ends without one. -/
def scanTerminator : List Nat → Option (List Nat)
  | [] => none
  | c :: rest => if isTerminator c then some rest else scanTerminator rest

/-- The function `bytesToKey` of `termkey.go`: tries to parse a key sequence from `b`; returns the
key and the remainder of the input, or `utf8.RuneError`. -/
def bytesToKey (b : List Nat) (pasteActive : Bool) : Nat × List Nat :=
  if b.length = 0 then (utf8.RuneError, [])
  else if pasteActive = false ∧ b.getD 0 0 = 1 then (KeyHome, b.drop 1)
  else if pasteActive = false ∧ b.getD 0 0 = 2 then (KeyLeft, b.drop 1)
  else if pasteActive = false ∧ b.getD 0 0 = 5 then (KeyEnd, b.drop 1)
  else if pasteActive = false ∧ b.getD 0 0 = 6 then (KeyRight, b.drop 1)
  else if pasteActive = false ∧ b.getD 0 0 = 8 then (KeyBackspace, b.drop 1)
  else if pasteActive = false ∧ b.getD 0 0 = 11 then (KeyDeleteLine, b.drop 1)
  else if pasteActive = false ∧ b.getD 0 0 = 12 then (KeyClearScreen, b.drop 1)
  else if pasteActive = false ∧ b.getD 0 0 = 23 then (KeyDeleteWord, b.drop 1)
  else if pasteActive = false ∧ b.getD 0 0 = 14 then (KeyDown, b.drop 1)
  else if pasteActive = false ∧ b.getD 0 0 = 16 then (KeyUp, b.drop 1)
  else if b.getD 0 0 ≠ KeyEscape then
    if utf8.FullRune b = false then (utf8.RuneError, b)
    else ((utf8.DecodeRune b).1, b.drop (utf8.DecodeRune b).2)
  else if pasteActive = false ∧ b.length ≥ 3 ∧ b.getD 0 0 = KeyEscape ∧ b.getD 1 0 = 91
      ∧ b.getD 2 0 = 65 then (KeyUp, b.drop 3)
  else if pasteActive = false ∧ b.length ≥ 3 ∧ b.getD 0 0 = KeyEscape ∧ b.getD 1 0 = 91
      ∧ b.getD 2 0 = 66 then (KeyDown, b.drop 3)
  else if pasteActive = false ∧ b.length ≥ 3 ∧ b.getD 0 0 = KeyEscape ∧ b.getD 1 0 = 91
      ∧ b.getD 2 0 = 67 then (KeyRight, b.drop 3)
  else if pasteActive = false ∧ b.length ≥ 3 ∧ b.getD 0 0 = KeyEscape ∧ b.getD 1 0 = 91
      ∧ b.getD 2 0 = 68 then (KeyLeft, b.drop 3)
  else if pasteActive = false ∧ b.length ≥ 3 ∧ b.getD 0 0 = KeyEscape ∧ b.getD 1 0 = 91
      ∧ b.getD 2 0 = 72 then (KeyHome, b.drop 3)
  else if pasteActive = false ∧ b.length ≥ 3 ∧ b.getD 0 0 = KeyEscape ∧ b.getD 1 0 = 91
      ∧ b.getD 2 0 = 70 then (KeyEnd, b.drop 3)
  else if pasteActive = false ∧ b.length ≥ 3 ∧ b.getD 0 0 = KeyEscape ∧ b.getD 1 0 = 91
      ∧ b.getD 2 0 = 90 then (KeyTabOut, b.drop 3)
  else if pasteActive = false ∧ b.length ≥ 4 ∧ b.getD 0 0 = KeyEscape ∧ b.getD 1 0 = 91
      ∧ b.getD 2 0 = 0x33 ∧ b.getD 3 0 = 0x7e then (KeyDel, b.drop 4)
  else if pasteActive = false ∧ b.length ≥ 6 ∧ b.getD 0 0 = KeyEscape ∧ b.getD 1 0 = 91
      ∧ b.getD 2 0 = 49 ∧ b.getD 3 0 = 59 ∧ b.getD 4 0 = 51 ∧ b.getD 5 0 = 67 then
    (KeyAltRight, b.drop 6)
  else if pasteActive = false ∧ b.length ≥ 6 ∧ b.getD 0 0 = KeyEscape ∧ b.getD 1 0 = 91
      ∧ b.getD 2 0 = 49 ∧ b.getD 3 0 = 59 ∧ b.getD 4 0 = 51 ∧ b.getD 5 0 = 68 then
    (KeyAltLeft, b.drop 6)
  else if pasteActive = false ∧ b.length ≥ 6 ∧ b.take 6 = pasteStart then
    (KeyPasteStart, b.drop 6)
  else if pasteActive = true ∧ b.length ≥ 6 ∧ b.take 6 = pasteEnd then
    (KeyPasteEnd, b.drop 6)
  else
    match scanTerminator b with
    | some rest => (KeyUnknown, rest)
    | none => (utf8.RuneError, b)

/-! ## The decoder -/

/-- An error of the byte source: end of input (`io.EOF`) or any other failure. -/
inductive ReadError where
  | EOF : ReadError
  | failure (code : Nat) : ReadError
  deriving DecidableEq, Repr

/-- The outcome of one `ReadByte` call on the byte source. -/
inductive ReadResult where
  | byte (b : Nat) : ReadResult
  | fail (e : ReadError) : ReadResult
  deriving DecidableEq, Repr

/-- The state of a keypress input session. The `reader` is the list of the outcomes of the
successive `ReadByte` calls still to come; an exhausted source reports `EOF`. -/
structure TermKey where
  inBuf : List Nat
  reader : List ReadResult
  deriving DecidableEq, Repr

/-- The function `NewTermKey`: a session on the given reader, with an empty buffer. -/
def NewTermKey (reader : List ReadResult) : TermKey :=
  { inBuf := [], reader := reader }

/-- The body of the loop of `ReadKey` after a successful `ReadByte` (lines 44 to 48): append the
byte, run the matcher with the paste flag `false`, and drop the first six bytes of a buffer longer
than six. Returns the key and the new pending buffer. -/
def ReadKey.body (inBuf : List Nat) (b : Nat) : Nat × List Nat :=
  let r := bytesToKey (inBuf ++ [b]) false
  (r.1, if r.2.length > 6 then r.2.drop 6 else r.2)

/-- The loop of `ReadKey`, entered with `key = utf8.RuneError`: one iteration per `ReadByte`. -/
def ReadKey.loop (inBuf : List Nat) : List ReadResult → (Nat × Option ReadError) × TermKey
  | [] => ((KeyUnknown, some ReadError.EOF), { inBuf := inBuf, reader := [] })
  | ReadResult.fail e :: rest => ((KeyUnknown, some e), { inBuf := inBuf, reader := rest })
  | ReadResult.byte b :: rest =>
    if (ReadKey.body inBuf b).1 = utf8.RuneError then
      ReadKey.loop (ReadKey.body inBuf b).2 rest
    else
      (((ReadKey.body inBuf b).1, none), { inBuf := (ReadKey.body inBuf b).2, reader := rest })

/-- The method `ReadKey`: a keypress rune from the input session, or the error of the source. -/
def ReadKey (t : TermKey) : (Nat × Option ReadError) × TermKey :=
  ReadKey.loop t.inBuf t.reader

/-- The loop of `TestKeyPresses`: calls `ReadKey` until it returns an error (at most `fuel`
calls); the keys read, each with the pending buffer left by its call, and the error that ended
the loop (`none` when the calls ran out first). -/
def keysRead : Nat → TermKey → List (Nat × List Nat) × Option ReadError
  | 0, _ => ([], none)
  | fuel + 1, t =>
    match ReadKey t with
    | ((_, some e), _) => ([], some e)
    | ((k, none), t1) => ((k, t1.inBuf) :: (keysRead fuel t1).1, (keysRead fuel t1).2)

/-- A reader that delivers the bytes `bs` one at a time and then reports end of input. -/
def bytesReader (bs : List Nat) : List ReadResult :=
  bs.map ReadResult.byte

/-- All keys read from a fresh decoder on the input `bs`: each `ReadKey` call consumes at least
one byte, so `bs.length + 1` calls reach the end of input. -/
def keysOfInput (bs : List Nat) : List (Nat × List Nat) × Option ReadError :=
  keysRead (bs.length + 1) (NewTermKey (bytesReader bs))

/-- The keys that successive `ReadKey` calls return from the buffer `inBuf` on the given reader,
each with the pending buffer left by its call, and the error that ends the calls. It runs the loop
body once per byte and emits a key whenever the body resolves one. -/
def keysFrom (inBuf : List Nat) : List ReadResult → List (Nat × List Nat) × ReadError
  | [] => ([], ReadError.EOF)
  | ReadResult.fail e :: _ => ([], e)
  | ReadResult.byte b :: rest =>
    if (ReadKey.body inBuf b).1 = utf8.RuneError then keysFrom (ReadKey.body inBuf b).2 rest
    else
      (((ReadKey.body inBuf b).1, (ReadKey.body inBuf b).2)
          :: (keysFrom (ReadKey.body inBuf b).2 rest).1,
        (keysFrom (ReadKey.body inBuf b).2 rest).2)

/-- The pending buffer after the bytes `bs` have gone through the loop body, starting from
`inBuf`, when no iteration resolves a key; `none` as soon as one does. -/
def pendingAfter (inBuf : List Nat) : List Nat → Option (List Nat)
  | [] => some inBuf
  | b :: rest =>
    if (ReadKey.body inBuf b).1 = utf8.RuneError then pendingAfter (ReadKey.body inBuf b).2 rest
    else none

/-- The bytes `s` are one complete key `k` for a decoder with an empty buffer: the matcher
resolves `s` to `k` and consumes all of it, and on every non-empty strict beginning of `s` it
signals incomplete and leaves the buffer unchanged. -/
def CompleteKey (s : List Nat) (k : Nat) : Prop :=
  s ≠ [] ∧ s.length ≤ 7 ∧ k ≠ utf8.RuneError ∧ bytesToKey s false = (k, []) ∧
    ∀ n, 0 < n → n < s.length → bytesToKey (s.take n) false = (utf8.RuneError, s.take n)

/-- The bytes `t` are an incomplete trailing sequence: at most six bytes, and the matcher signals
incomplete with the buffer unchanged on every non-empty beginning of `t`, `t` included. -/
def IncompleteKey (t : List Nat) : Prop :=
  t.length ≤ 6 ∧
    ∀ n, 0 < n → n ≤ t.length → bytesToKey (t.take n) false = (utf8.RuneError, t.take n)

/-- The ten control bytes that `bytesToKey` remaps when the paste flag is off. -/
def isShortcut (c : Nat) : Bool :=
  decide (c = 1 ∨ c = 2 ∨ c = 5 ∨ c = 6 ∨ c = 8 ∨ c = 11 ∨ c = 12 ∨ c = 14 ∨ c = 16 ∨ c = 23)

/-- The key that `bytesToKey` returns for a control-shortcut byte. -/
def shortcutKey (c : Nat) : Nat :=
  if c = 1 then KeyHome
  else if c = 2 then KeyLeft
  else if c = 5 then KeyEnd
  else if c = 6 then KeyRight
  else if c = 8 then KeyBackspace
  else if c = 11 then KeyDeleteLine
  else if c = 12 then KeyClearScreen
  else if c = 14 then KeyDown
  else if c = 16 then KeyUp
  else KeyDeleteWord

/-- A Unicode scalar value: at most U+10FFFF and not a surrogate. -/
def IsScalar (r : Nat) : Prop :=
  r ≤ 0x10FFFF ∧ (r < 0xD800 ∨ 0xDFFF < r)

instance (r : Nat) : Decidable (IsScalar r) := by unfold IsScalar; infer_instance

/-- A scalar that a decoder returns as itself: not a control shortcut, not ESC and not U+FFFD. -/
def IsPlainScalar (r : Nat) : Prop :=
  IsScalar r ∧ isShortcut r = false ∧ r ≠ KeyEscape ∧ r ≠ utf8.RuneError

instance (r : Nat) : Decidable (IsPlainScalar r) := by unfold IsPlainScalar; infer_instance

/-- The escape sequences that `bytesToKey` recognizes when the paste flag is off, each with its
key: `ESC[A`, `ESC[B`, `ESC[C`, `ESC[D`, `ESC[H`, `ESC[F`, `ESC[Z`, `ESC[3~`, `ESC[1;3C`,
`ESC[1;3D` and `ESC[200~`. -/
def recognized : List (List Nat × Nat) :=
  [([27, 91, 65], KeyUp), ([27, 91, 66], KeyDown), ([27, 91, 67], KeyRight),
    ([27, 91, 68], KeyLeft), ([27, 91, 72], KeyHome), ([27, 91, 70], KeyEnd),
    ([27, 91, 90], KeyTabOut), ([27, 91, 51, 126], KeyDel),
    ([27, 91, 49, 59, 51, 67], KeyAltRight), ([27, 91, 49, 59, 51, 68], KeyAltLeft),
    ([27, 91, 50, 48, 48, 126], KeyPasteStart)]

/-- The escape sequences recognized under a given paste flag: only the end marker when the flag
is on. -/
def recognizedFor (flag : Bool) : List (List Nat × Nat) :=
  if flag then [([27, 91, 50, 48, 49, 126], KeyPasteEnd)] else recognized

/-- The result of the final loop of `bytesToKey` and the return after it. -/
def fallbackKey (b : List Nat) : Nat × List Nat :=
  match scanTerminator b with
  | some rest => (KeyUnknown, rest)
  | none => (utf8.RuneError, b)

/-- An unrecognized escape sequence of 2 to 7 bytes: ESC, then at most five bytes that are not
terminators, then one terminator (a letter or `~`), and not one of the recognized sequences. -/
def IsUnknownSeq (s : List Nat) : Prop :=
  ∃ mid z, s = 27 :: mid ++ [z] ∧ mid.length ≤ 5 ∧ (∀ c ∈ mid, isTerminator c = false) ∧
    isTerminator z = true ∧ s ∉ recognized.map Prod.fst

/-- A key token of the input: the encoding of a plain scalar, a control-shortcut byte, a
recognized escape sequence with its key, or an unrecognized escape sequence. -/
inductive Token where
  | scalar (r : Nat) : Token
  | shortcut (c : Nat) : Token
  | sequence (s : List Nat) (k : Nat) : Token
  | unknown (s : List Nat) : Token

/-- The bytes of a token. -/
def Token.bytes : Token → List Nat
  | Token.scalar r => utf8.EncodeRune r
  | Token.shortcut c => [c]
  | Token.sequence s _ => s
  | Token.unknown s => s

/-- The key a token stands for. -/
def Token.key : Token → Nat
  | Token.scalar r => r
  | Token.shortcut c => shortcutKey c
  | Token.sequence _ k => k
  | Token.unknown _ => KeyUnknown

/-- Well-formed tokens. -/
def Token.WellFormed : Token → Prop
  | Token.scalar r => IsPlainScalar r
  | Token.shortcut c => isShortcut c = true
  | Token.sequence s k => (s, k) ∈ recognized
  | Token.unknown s => IsUnknownSeq s

/-- A decidable check of `CompleteKey`, for concrete sequences. -/
def checkComplete (s : List Nat) (k : Nat) : Bool :=
  decide (s ≠ [] ∧ s.length ≤ 7 ∧ k ≠ utf8.RuneError ∧ bytesToKey s false = (k, [])) &&
    (List.range s.length).all
      (fun n => n == 0 || decide (bytesToKey (s.take n) false = (utf8.RuneError, s.take n)))

/-- The no-loss property of an input: it splits into segments and a trailing sequence such that
the keys read are, in order, the keys the matcher resolves from exactly the segments, each
consumed whole, and the matcher is still incomplete on the trailing sequence. -/
def NoLoss (input : List Nat) : Prop :=
  ∃ (segs : List (List Nat)) (t : List Nat), input = segs.flatten ++ t ∧
    (keysOfInput input).1.map Prod.fst = segs.map (fun s => (bytesToKey s false).1) ∧
    (∀ s ∈ segs, (bytesToKey s false).1 ≠ utf8.RuneError ∧ (bytesToKey s false).2 = []) ∧
    bytesToKey t false = (utf8.RuneError, t)

/-- The twelve escape sequences of the matcher: the eleven recognized with the paste flag off and
the end marker `ESC[201~`. -/
def escapeSequences : List (List Nat) :=
  recognized.map Prod.fst ++ [[27, 91, 50, 48, 49, 126]]

/-- The call `t.reader.ReadByte()`: the next outcome of the byte source and the rest of the
source; an exhausted source reports `EOF`. -/
def ReadByte : List ReadResult → ReadResult × List ReadResult
  | [] => (ReadResult.fail ReadError.EOF, [])
  | r :: rest => (r, rest)

/-- The state of the decoder after `n` successive `ReadKey` calls. -/
def afterCalls : Nat → TermKey → TermKey
  | 0, t => t
  | n + 1, t => afterCalls n (ReadKey t).2

/-- The pending buffer after the loop body has run on each of the bytes `bs` in turn, starting
from `inBuf`; the buffer persists from one `ReadKey` call to the next, so this is the buffer at
the end of every loop iteration of a run. -/
def inBufAfter (inBuf : List Nat) (bs : List Nat) : List Nat :=
  bs.foldl (fun buf b => (ReadKey.body buf b).2) inBuf

/-- A decidable check of `IncompleteKey`, for concrete sequences. -/
def checkIncomplete (t : List Nat) : Bool :=
  decide (t.length ≤ 6) &&
    (List.range (t.length + 1)).all
      (fun n => n == 0 || decide (bytesToKey (t.take n) false = (utf8.RuneError, t.take n)))

/-- The sixteen named keys of the reserved range, `KeyUnknown` to `KeyDel`. -/
def namedKeys : List Nat :=
  [KeyUnknown, KeyUp, KeyDown, KeyLeft, KeyRight, KeyAltLeft, KeyAltRight, KeyHome, KeyEnd,
    KeyDeleteWord, KeyDeleteLine, KeyClearScreen, KeyPasteStart, KeyPasteEnd, KeyTabOut, KeyDel]

/-- The ten control-shortcut bytes with the keys `bytesToKey` maps them to. -/
def shortcutTable : List (Nat × Nat) :=
  [(1, KeyHome), (2, KeyLeft), (5, KeyEnd), (6, KeyRight), (8, KeyBackspace),
    (11, KeyDeleteLine), (12, KeyClearScreen), (14, KeyDown), (16, KeyUp), (23, KeyDeleteWord)]

/-- The map `standardMap` of `termkey.go`: the standard ASCII keys with names. -/
def standardMap : List (Nat × String) :=
  [(KeyTab, "Tab"), (KeyEnter, "Enter"), (KeyEscape, "Escape"), (KeyBackspace, "Backspace")]

/-- The map `keyMap` of `termkey.go`: the remapped keys with their names. -/
def keyMap : List (Nat × String) :=
  [(KeyUnknown, "Unknown"), (KeyUp, "Up"), (KeyDown, "Down"), (KeyLeft, "Left"),
    (KeyRight, "Right"), (KeyAltLeft, "AltLeft"), (KeyAltRight, "AltRight"), (KeyHome, "Home"),
    (KeyEnd, "End"), (KeyDeleteWord, "DeleteWord"), (KeyDeleteLine, "DeleteLine"),
    (KeyClearScreen, "ClearScreen"), (KeyPasteStart, "PasteStart"), (KeyPasteEnd, "PasteEnd"),
    (KeyTabOut, "TabOut"), (KeyDel, "Delete")]

/-- The function `IsRemapped`: the textual name and `true` for a key of `keyMap`, the empty
string and `false` for any other rune. -/
def IsRemapped (r : Nat) : String × Bool :=
  match keyMap.lookup r with
  | some s => (s, true)
  | none => ("", false)

/-! ## The loop of `ReadKey` and successive calls -/

theorem bytesReader_append (a b : List Nat) :
    bytesReader (a ++ b) = bytesReader a ++ bytesReader b := by
  simp [bytesReader]

theorem bytesReader_cons (a : Nat) (b : List Nat) :
    bytesReader (a :: b) = ReadResult.byte a :: bytesReader b := rfl

theorem bytesReader_length (a : List Nat) : (bytesReader a).length = a.length := by
  simp [bytesReader]

/-- What one `ReadKey` call does, in terms of `keysFrom`: either it returns an error and no key
was read, or it returns the first key, leaves a strictly shorter reader, and the remaining keys
are those read from the state it leaves. -/
theorem loop_spec (evs : List ReadResult) : ∀ inBuf : List Nat,
    (∃ e t, ReadKey.loop inBuf evs = ((KeyUnknown, some e), t) ∧ keysFrom inBuf evs = ([], e)) ∨
    (∃ k t, ReadKey.loop inBuf evs = ((k, none), t) ∧ t.reader.length < evs.length ∧
      keysFrom inBuf evs
        = ((k, t.inBuf) :: (keysFrom t.inBuf t.reader).1, (keysFrom t.inBuf t.reader).2)) := by
  induction evs with
  | nil => intro inBuf; left; exact ⟨_, _, rfl, rfl⟩
  | cons ev rest ih =>
    intro inBuf
    cases ev with
    | fail e => left; exact ⟨_, _, rfl, rfl⟩
    | byte b =>
      by_cases h : (ReadKey.body inBuf b).1 = utf8.RuneError
      · rcases ih (ReadKey.body inBuf b).2 with ⟨e, t, h1, h2⟩ | ⟨k, t, h1, h2, h3⟩
        · left
          refine ⟨e, t, ?_, ?_⟩
          · simp only [ReadKey.loop, h, if_true, h1]
          · simp only [keysFrom, h, if_true, h2]
        · right
          refine ⟨k, t, ?_, ?_, ?_⟩
          · simp only [ReadKey.loop, h, if_true, h1]
          · simp only [List.length_cons]; omega
          · simp only [keysFrom, h, if_true, h3]
      · right
        refine ⟨(ReadKey.body inBuf b).1, ⟨(ReadKey.body inBuf b).2, rest⟩, ?_, ?_, ?_⟩
        · simp only [ReadKey.loop, h, if_false]
        · simp
        · simp only [keysFrom, h, if_false]

/-- With enough calls (more than the reader is long), `keysRead` is `keysFrom`. -/
theorem keysRead_eq_keysFrom : ∀ (fuel : Nat) (t : TermKey), t.reader.length < fuel →
    keysRead fuel t = ((keysFrom t.inBuf t.reader).1, some (keysFrom t.inBuf t.reader).2) := by
  intro fuel
  induction fuel with
  | zero => intro t h; omega
  | succ n ih =>
    intro t h
    rcases loop_spec t.reader t.inBuf with ⟨e, t1, h1, h2⟩ | ⟨k, t1, h1, h2, h3⟩
    · simp only [keysRead, ReadKey, h1, h2]
    · have hlt : t1.reader.length < n := by omega
      simp only [keysRead, ReadKey, h1, h3, ih t1 hlt]

theorem keysOfInput_eq (bs : List Nat) :
    keysOfInput bs = ((keysFrom [] (bytesReader bs)).1, some (keysFrom [] (bytesReader bs)).2) := by
  unfold keysOfInput
  rw [keysRead_eq_keysFrom]
  · rfl
  · simp [NewTermKey, bytesReader]

/-- Bytes on which the loop body resolves no key are passed over by the loop. -/
theorem loop_pendingAfter (bs : List Nat) (tail : List ReadResult) :
    ∀ inBuf buf, pendingAfter inBuf bs = some buf →
      ReadKey.loop inBuf (bytesReader bs ++ tail) = ReadKey.loop buf tail := by
  induction bs with
  | nil => intro inBuf buf h; simp only [pendingAfter, Option.some.injEq] at h; subst h; rfl
  | cons b bs ih =>
    intro inBuf buf h
    by_cases hk : (ReadKey.body inBuf b).1 = utf8.RuneError
    · simp only [pendingAfter, hk, if_true] at h
      simp only [bytesReader_cons, List.cons_append, ReadKey.loop, hk, if_true]
      exact ih _ _ h
    · simp [pendingAfter, hk] at h

theorem keysFrom_pendingAfter (bs : List Nat) (tail : List ReadResult) :
    ∀ inBuf buf, pendingAfter inBuf bs = some buf →
      keysFrom inBuf (bytesReader bs ++ tail) = keysFrom buf tail := by
  induction bs with
  | nil => intro inBuf buf h; simp only [pendingAfter, Option.some.injEq] at h; subst h; rfl
  | cons b bs ih =>
    intro inBuf buf h
    by_cases hk : (ReadKey.body inBuf b).1 = utf8.RuneError
    · simp only [pendingAfter, hk, if_true] at h
      simp only [bytesReader_cons, List.cons_append, keysFrom, hk, if_true]
      exact ih _ _ h
    · simp [pendingAfter, hk] at h

theorem pendingAfter_append (a : List Nat) : ∀ (b inBuf buf : List Nat),
    pendingAfter inBuf a = some buf → pendingAfter inBuf (a ++ b) = pendingAfter buf b := by
  induction a with
  | nil => intro b inBuf buf h; simp only [pendingAfter, Option.some.injEq] at h; subst h; rfl
  | cons x a ih =>
    intro b inBuf buf h
    by_cases hk : (ReadKey.body inBuf x).1 = utf8.RuneError
    · simp only [pendingAfter, hk, if_true] at h
      simp only [List.cons_append, pendingAfter, hk, if_true]
      exact ih _ _ _ h
    · simp [pendingAfter, hk] at h

theorem take_append_cons (p : List Nat) (x : Nat) (q : List Nat) :
    (p ++ x :: q).take (p.length + 1) = p ++ [x] := by
  induction p with
  | nil => simp
  | cons a p ih => simpa using ih

/-- The loop body on a buffer that the matcher leaves incomplete and unchanged, at most six
bytes long. -/
theorem body_of_incomplete (p : List Nat) (b : Nat)
    (h : bytesToKey (p ++ [b]) false = (utf8.RuneError, p ++ [b])) (hl : p.length + 1 ≤ 6) :
    ReadKey.body p b = (utf8.RuneError, p ++ [b]) := by
  have hlen : ¬ (p ++ [b]).length > 6 := by simp; omega
  simp only [ReadKey.body, h, hlen, if_false]

/-- The loop body on a buffer that the matcher resolves completely. -/
theorem body_of_complete (p : List Nat) (b k : Nat)
    (h : bytesToKey (p ++ [b]) false = (k, [])) : ReadKey.body p b = (k, []) := by
  simp [ReadKey.body, h]

/-- Feeding the beginning of an incomplete sequence leaves exactly those bytes pending. -/
theorem pendingAfter_incomplete (t : List Nat) (ht : IncompleteKey t) :
    ∀ q p, p ++ q = t → pendingAfter p q = some t := by
  intro q
  induction q with
  | nil => intro p h; simp only [List.append_nil] at h; subst h; rfl
  | cons b q ih =>
    intro p h
    have h1 : (p ++ [b]) ++ q = t := by simp [← h]
    have hlen : p.length + 1 ≤ t.length := by rw [← h]; simp
    have htake : t.take (p.length + 1) = p ++ [b] := by
      rw [← h]; exact take_append_cons p b q
    have hb := ht.2 (p.length + 1) (by omega) hlen
    rw [htake] at hb
    have hbody := body_of_incomplete p b hb (by have := ht.1; omega)
    simp only [pendingAfter, hbody, if_true]
    exact ih _ h1

/-- Feeding a complete key to a decoder whose buffer holds a beginning of it: every byte but the
last leaves the loop running, the last byte resolves the key and empties the buffer. -/
theorem pending_complete (s : List Nat) (k : Nat) (hs : CompleteKey s k) :
    ∀ q p b, p ++ q ++ [b] = s →
      pendingAfter p q = some (p ++ q) ∧ ReadKey.body (p ++ q) b = (k, []) := by
  obtain ⟨_, hlen7, _, hfull, hpre⟩ := hs
  intro q
  induction q with
  | nil =>
    intro p b h
    simp only [List.append_nil] at h ⊢
    refine ⟨rfl, body_of_complete _ _ _ ?_⟩
    rw [h]; exact hfull
  | cons x q ih =>
    intro p b h
    have h1 : (p ++ [x]) ++ q ++ [b] = s := by simp [← h]
    have hlen : p.length + 1 < s.length := by rw [← h]; simp
    have htake : s.take (p.length + 1) = p ++ [x] := by
      rw [← h, List.append_assoc]; exact take_append_cons p x (q ++ [b])
    have hb := hpre (p.length + 1) (by omega) hlen
    rw [htake] at hb
    have hbody := body_of_incomplete p x hb (by omega)
    obtain ⟨ih1, ih2⟩ := ih (p ++ [x]) b h1
    simp only [List.append_assoc, List.singleton_append] at ih1 ih2
    exact ⟨by simp only [pendingAfter, hbody, if_true]; exact ih1, ih2⟩

/-- One `ReadKey` call on a fresh buffer reads a complete key: it returns the key with no error,
consumes exactly the bytes of the key and leaves the buffer empty. -/
theorem loop_complete (s : List Nat) (k : Nat) (hs : CompleteKey s k) (tail : List ReadResult) :
    ReadKey.loop [] (bytesReader s ++ tail) = ((k, none), { inBuf := [], reader := tail }) := by
  have hne := hs.1
  have hk := hs.2.2.1
  obtain ⟨q, b, rfl⟩ : ∃ q b, s = q ++ [b] := by
    rcases List.eq_nil_or_concat s with h | ⟨q, b, h⟩
    · exact absurd h hne
    · exact ⟨q, b, by simpa using h⟩
  obtain ⟨h1, h2⟩ := pending_complete _ k hs q [] b (by simp)
  simp only [List.nil_append] at h1 h2
  rw [bytesReader_append, List.append_assoc, loop_pendingAfter q _ [] q h1]
  simp [bytesReader, ReadKey.loop, h2, hk]

theorem keysFrom_complete (s : List Nat) (k : Nat) (hs : CompleteKey s k)
    (tail : List ReadResult) :
    keysFrom [] (bytesReader s ++ tail) = ((k, []) :: (keysFrom [] tail).1, (keysFrom [] tail).2) := by
  have hne := hs.1
  have hk := hs.2.2.1
  obtain ⟨q, b, rfl⟩ : ∃ q b, s = q ++ [b] := by
    rcases List.eq_nil_or_concat s with h | ⟨q, b, h⟩
    · exact absurd h hne
    · exact ⟨q, b, by simpa using h⟩
  obtain ⟨h1, h2⟩ := pending_complete _ k hs q [] b (by simp)
  simp only [List.nil_append] at h1 h2
  rw [bytesReader_append, List.append_assoc, keysFrom_pendingAfter q _ [] q h1]
  simp [bytesReader, keysFrom, h2, hk]

/-- A list of complete keys followed by an incomplete sequence: the keys read are exactly the
keys of the segments, each leaving an empty buffer, and the calls end with end of input. -/
theorem keysFrom_segments (segs : List (List Nat × Nat)) (t : List Nat)
    (hsegs : ∀ sk ∈ segs, CompleteKey sk.1 sk.2) (ht : IncompleteKey t) :
    keysFrom [] (bytesReader ((segs.map Prod.fst).flatten ++ t))
      = (segs.map (fun sk => (sk.2, [])), ReadError.EOF) := by
  induction segs with
  | nil =>
    have h := keysFrom_pendingAfter t [] [] t (pendingAfter_incomplete t ht t [] rfl)
    simpa [keysFrom] using h
  | cons sk segs ih =>
    have h1 := hsegs sk (List.mem_cons_self _ _)
    have h2 := ih (fun x hx => hsegs x (List.mem_cons_of_mem _ hx))
    simp only [List.map_cons, List.flatten_cons, List.append_assoc, bytesReader_append]
    rw [keysFrom_complete sk.1 sk.2 h1]
    rw [bytesReader_append] at h2
    rw [h2]

/-! ## UTF-8: the encoder against `FullRune` and `DecodeRune` -/

namespace utf8

theorem and_3F (x : Nat) : x &&& 0x3F = x % 64 := Nat.and_pow_two_sub_one_eq_mod x 6
theorem and_1F (x : Nat) : x &&& 0x1F = x % 32 := Nat.and_pow_two_sub_one_eq_mod x 5
theorem and_0F (x : Nat) : x &&& 0x0F = x % 16 := Nat.and_pow_two_sub_one_eq_mod x 4
theorem and_07 (x : Nat) : x &&& 0x07 = x % 8 := Nat.and_pow_two_sub_one_eq_mod x 3
theorem and_32 (x : Nat) : x &&& 0xFFFFFFFF = x % 4294967296 :=
  Nat.and_pow_two_sub_one_eq_mod x 32

theorem or_eq_add (i a b : Nat) (h : b < 2 ^ i) : 2 ^ i * a ||| b = 2 ^ i * a + b :=
  (Nat.mul_add_lt_is_or h a).symm

theorem or_80 (y : Nat) (h : y < 64) : 0x80 ||| y = 128 + y := or_eq_add 6 2 y h
theorem or_C0 (y : Nat) (h : y < 64) : 0xC0 ||| y = 192 + y := or_eq_add 6 3 y h
theorem or_E0 (y : Nat) (h : y < 16) : 0xE0 ||| y = 224 + y := or_eq_add 4 14 y h
theorem or_F0 (y : Nat) (h : y < 8) : 0xF0 ||| y = 240 + y := or_eq_add 3 30 y h

theorem shl6_or (a b : Nat) (h : b < 64) : a <<< 6 ||| b = a * 64 + b := by
  rw [Nat.shiftLeft_eq, Nat.mul_comm a, or_eq_add 6 a b h]

theorem shl12_or (a b : Nat) (h : b < 4096) : a <<< 12 ||| b = a * 4096 + b := by
  rw [Nat.shiftLeft_eq, Nat.mul_comm a, or_eq_add 12 a b h]

theorem shl18_or (a b : Nat) (h : b < 262144) : a <<< 18 ||| b = a * 262144 + b := by
  rw [Nat.shiftLeft_eq, Nat.mul_comm a, or_eq_add 18 a b h]

theorem first_as {b : Nat} (h : b < 0x80) : first b = as := by
  unfold first; rw [if_pos h]

theorem first_xx_low {b : Nat} (h1 : 0x80 ≤ b) (h2 : b < 0xC2) : first b = xx := by
  unfold first; split_ifs <;> omega

theorem first_xx_high {b : Nat} (h1 : 0xF5 ≤ b) : first b = xx := by
  unfold first; split_ifs <;> omega

theorem first_s1 {b : Nat} (h1 : 0xC2 ≤ b) (h2 : b < 0xE0) : first b = s1 := by
  unfold first; split_ifs <;> omega

theorem first_s3 {b : Nat} (h1 : 0xE1 ≤ b) (h2 : b < 0xF0) (h3 : b ≠ 0xED) : first b = s3 := by
  unfold first; split_ifs <;> omega

theorem first_s6 {b : Nat} (h1 : 0xF1 ≤ b) (h2 : b < 0xF4) : first b = s6 := by
  unfold first; split_ifs <;> omega

/-- The encoding of a rune of the two-byte range, in arithmetic. -/
theorem EncodeRune_two (r : Nat) (h1 : 0x80 ≤ r) (h2 : r < 0x800) :
    EncodeRune r = [192 + r / 64, 128 + r % 64] := by
  have e1 : (r >>> 6) % 256 = r / 64 := by
    rw [Nat.shiftRight_eq_div_pow]; omega
  have e2 : r % 256 &&& 0x3F = r % 64 := by rw [and_3F]; omega
  simp only [EncodeRune, rune1Max, rune2Max, t2, tx, maskx, e1, e2]
  rw [if_neg (by omega), if_pos (by omega), or_C0 _ (by omega), or_80 _ (by omega)]

/-- The encoding of a rune of the three-byte range that is not a surrogate, in arithmetic. -/
theorem EncodeRune_three (r : Nat) (h1 : 0x800 ≤ r) (h2 : r < 0x10000)
    (h3 : r < 0xD800 ∨ 0xDFFF < r) :
    EncodeRune r = [224 + r / 4096, 128 + r / 64 % 64, 128 + r % 64] := by
  have e0 : (r >>> 12) % 256 = r / 4096 := by
    rw [Nat.shiftRight_eq_div_pow]; omega
  have e1 : (r >>> 6) % 256 &&& 0x3F = r / 64 % 64 := by
    rw [and_3F, Nat.shiftRight_eq_div_pow]; omega
  have e2 : r % 256 &&& 0x3F = r % 64 := by rw [and_3F]; omega
  simp only [EncodeRune, rune1Max, rune2Max, rune3Max, MaxRune, surrogateMin, surrogateMax, t3,
    tx, maskx, e0, e1, e2]
  rw [if_neg (by omega), if_neg (by omega), if_neg (by omega), if_pos (by omega),
    or_E0 _ (by omega), or_80 _ (by omega), or_80 _ (by omega)]

/-- The encoding of a rune of the four-byte range, in arithmetic. -/
theorem EncodeRune_four (r : Nat) (h1 : 0x10000 ≤ r) (h2 : r ≤ 0x10FFFF) :
    EncodeRune r = [240 + r / 262144, 128 + r / 4096 % 64, 128 + r / 64 % 64, 128 + r % 64] := by
  have e0 : (r >>> 18) % 256 = r / 262144 := by
    rw [Nat.shiftRight_eq_div_pow]; omega
  have e1 : (r >>> 12) % 256 &&& 0x3F = r / 4096 % 64 := by
    rw [and_3F, Nat.shiftRight_eq_div_pow]; omega
  have e2 : (r >>> 6) % 256 &&& 0x3F = r / 64 % 64 := by
    rw [and_3F, Nat.shiftRight_eq_div_pow]; omega
  have e3 : r % 256 &&& 0x3F = r % 64 := by rw [and_3F]; omega
  simp only [EncodeRune, rune1Max, rune2Max, rune3Max, MaxRune, surrogateMin, surrogateMax, t4,
    tx, maskx, e0, e1, e2, e3]
  rw [if_neg (by omega), if_neg (by omega), if_neg (by omega), if_neg (by omega),
    or_F0 _ (by omega), or_80 _ (by omega), or_80 _ (by omega), or_80 _ (by omega)]

end utf8

/-! ## The matcher on text -/

/-- On a buffer whose first byte is neither ESC nor a remapped control byte, `bytesToKey` is the
UTF-8 path. -/
theorem bytesToKey_text (x : Nat) (tl : List Nat) (flag : Bool)
    (hc : flag = true ∨ isShortcut x = false) (he : x ≠ 27) :
    bytesToKey (x :: tl) flag
      = if utf8.FullRune (x :: tl) = false then (utf8.RuneError, x :: tl)
        else ((utf8.DecodeRune (x :: tl)).1, (x :: tl).drop (utf8.DecodeRune (x :: tl)).2) := by
  have hx : flag = false → x ≠ 1 ∧ x ≠ 2 ∧ x ≠ 5 ∧ x ≠ 6 ∧ x ≠ 8 ∧ x ≠ 11 ∧ x ≠ 12 ∧ x ≠ 14
      ∧ x ≠ 16 ∧ x ≠ 23 := by
    intro hf
    rcases hc with h | h
    · simp [hf] at h
    · simp only [isShortcut, decide_eq_false_iff_not] at h
      omega
  unfold bytesToKey
  cases flag with
  | true => simp [KeyEscape, he]
  | false =>
    obtain ⟨h1, h2, h3, h4, h5, h6, h7, h8, h9, h10⟩ := hx rfl
    simp [KeyEscape, he, h1, h2, h3, h4, h5, h6, h7, h8, h9, h10]

namespace utf8

theorem FullRune_ascii (x : Nat) (tl : List Nat) (h : x < 0x80) : FullRune (x :: tl) = true := by
  have e : (240 : Nat) &&& 7 = 0 := by decide
  simp [FullRune, first_as h, as, e]

theorem DecodeRune_ascii (x : Nat) (tl : List Nat) (h : x < 0x80) :
    DecodeRune (x :: tl) = (x, 1) := by
  have hm : x % 4294967296 = x := by omega
  simp [DecodeRune, first_as h, as, RuneError, and_32, hm]

end utf8

namespace utf8

theorem FullRune_one (b0 : Nat) (hsz : 2 ≤ first b0 &&& 7) : FullRune [b0] = false := by
  have h : ¬ 1 ≥ first b0 &&& 7 := by omega
  simp only [FullRune, List.length_singleton, List.getD_cons_zero, h, if_false]
  simp

theorem FullRune_two (b0 b1 : Nat) (hsz : 3 ≤ first b0 &&& 7)
    (hlo : (acceptRanges (first b0 >>> 4)).1 ≤ b1) (hhi : b1 ≤ (acceptRanges (first b0 >>> 4)).2) :
    FullRune [b0, b1] = false := by
  have h : ¬ 2 ≥ first b0 &&& 7 := by omega
  have h1 : ¬ (b1 < (acceptRanges (first b0 >>> 4)).1 ∨ (acceptRanges (first b0 >>> 4)).2 < b1) := by
    omega
  simp [FullRune, h, h1]

theorem FullRune_three (b0 b1 b2 : Nat) (hsz : 4 ≤ first b0 &&& 7)
    (hlo : (acceptRanges (first b0 >>> 4)).1 ≤ b1) (hhi : b1 ≤ (acceptRanges (first b0 >>> 4)).2)
    (h2lo : 0x80 ≤ b2) (h2hi : b2 ≤ 0xBF) :
    FullRune [b0, b1, b2] = false := by
  have h : ¬ 3 ≥ first b0 &&& 7 := by omega
  have h1 : ¬ (b1 < (acceptRanges (first b0 >>> 4)).1 ∨ (acceptRanges (first b0 >>> 4)).2 < b1) := by
    omega
  have h2 : ¬ (b2 < 128 ∨ 191 < b2) := by omega
  simp [FullRune, h, h1, h2, locb, hicb]

theorem FullRune_of_size (b0 : Nat) (tl : List Nat) (hsz : first b0 &&& 7 ≤ tl.length + 1) :
    FullRune (b0 :: tl) = true := by
  simp [FullRune, hsz]

theorem DecodeRune_two (b0 b1 : Nat) (hx : first b0 < as) (hsz : first b0 &&& 7 = 2)
    (hlo : (acceptRanges (first b0 >>> 4)).1 ≤ b1) (hhi : b1 ≤ (acceptRanges (first b0 >>> 4)).2) :
    DecodeRune [b0, b1] = (b0 % 32 * 64 + b1 % 64, 2) := by
  have h0 : ¬ first b0 ≥ as := by omega
  have h1 : ¬ (b1 < (acceptRanges (first b0 >>> 4)).1 ∨ (acceptRanges (first b0 >>> 4)).2 < b1) := by
    omega
  have hm : b1 % 64 < 64 := Nat.mod_lt _ (by omega)
  simp [DecodeRune, h0, h1, hsz, mask2, maskx, and_1F, and_3F, shl6_or _ _ hm]

theorem DecodeRune_three (b0 b1 b2 : Nat) (hx : first b0 < as) (hsz : first b0 &&& 7 = 3)
    (hlo : (acceptRanges (first b0 >>> 4)).1 ≤ b1) (hhi : b1 ≤ (acceptRanges (first b0 >>> 4)).2)
    (h2lo : 0x80 ≤ b2) (h2hi : b2 ≤ 0xBF) :
    DecodeRune [b0, b1, b2] = (b0 % 16 * 4096 + b1 % 64 * 64 + b2 % 64, 3) := by
  have h0 : ¬ first b0 ≥ as := by omega
  have h1 : ¬ (b1 < (acceptRanges (first b0 >>> 4)).1 ∨ (acceptRanges (first b0 >>> 4)).2 < b1) := by
    omega
  have h2 : ¬ (b2 < 128 ∨ 191 < b2) := by omega
  have hm1 : b1 % 64 < 64 := Nat.mod_lt _ (by omega)
  have hm2 : b2 % 64 < 64 := Nat.mod_lt _ (by omega)
  have e1 : (b0 % 16) <<< 12 ||| (b1 % 64) <<< 6 = b0 % 16 * 4096 + b1 % 64 * 64 := by
    rw [Nat.shiftLeft_eq (b1 % 64), shl12_or _ _ (by omega)]
  have e2 : b0 % 16 * 4096 + b1 % 64 * 64 ||| b2 % 64
      = b0 % 16 * 4096 + b1 % 64 * 64 + b2 % 64 := by
    have := or_eq_add 6 (b0 % 16 * 64 + b1 % 64) (b2 % 64) hm2
    have e : 2 ^ 6 * (b0 % 16 * 64 + b1 % 64) = b0 % 16 * 4096 + b1 % 64 * 64 := by omega
    rw [e] at this; exact this
  simp [DecodeRune, h0, h1, h2, hsz, mask3, maskx, and_0F, and_3F, locb, hicb, e1, e2]

theorem DecodeRune_four (b0 b1 b2 b3 : Nat) (hx : first b0 < as) (hsz : first b0 &&& 7 = 4)
    (hlo : (acceptRanges (first b0 >>> 4)).1 ≤ b1) (hhi : b1 ≤ (acceptRanges (first b0 >>> 4)).2)
    (h2lo : 0x80 ≤ b2) (h2hi : b2 ≤ 0xBF) (h3lo : 0x80 ≤ b3) (h3hi : b3 ≤ 0xBF) :
    DecodeRune [b0, b1, b2, b3]
      = (b0 % 8 * 262144 + b1 % 64 * 4096 + b2 % 64 * 64 + b3 % 64, 4) := by
  have h0 : ¬ first b0 ≥ as := by omega
  have h1 : ¬ (b1 < (acceptRanges (first b0 >>> 4)).1 ∨ (acceptRanges (first b0 >>> 4)).2 < b1) := by
    omega
  have h2 : ¬ (b2 < 128 ∨ 191 < b2) := by omega
  have h3 : ¬ (b3 < 128 ∨ 191 < b3) := by omega
  have hm1 : b1 % 64 < 64 := Nat.mod_lt _ (by omega)
  have hm2 : b2 % 64 < 64 := Nat.mod_lt _ (by omega)
  have hm3 : b3 % 64 < 64 := Nat.mod_lt _ (by omega)
  have e1 : (b0 % 8) <<< 18 ||| (b1 % 64) <<< 12 = b0 % 8 * 262144 + b1 % 64 * 4096 := by
    rw [Nat.shiftLeft_eq (b1 % 64), shl18_or _ _ (by omega)]
  have e2 : b0 % 8 * 262144 + b1 % 64 * 4096 ||| (b2 % 64) <<< 6
      = b0 % 8 * 262144 + b1 % 64 * 4096 + b2 % 64 * 64 := by
    have := or_eq_add 12 (b0 % 8 * 64 + b1 % 64) (b2 % 64 * 64) (by omega)
    have e : 2 ^ 12 * (b0 % 8 * 64 + b1 % 64) = b0 % 8 * 262144 + b1 % 64 * 4096 := by omega
    rw [e] at this; rw [Nat.shiftLeft_eq (b2 % 64)]; exact this
  have e3 : b0 % 8 * 262144 + b1 % 64 * 4096 + b2 % 64 * 64 ||| b3 % 64
      = b0 % 8 * 262144 + b1 % 64 * 4096 + b2 % 64 * 64 + b3 % 64 := by
    have := or_eq_add 6 (b0 % 8 * 4096 + b1 % 64 * 64 + b2 % 64) (b3 % 64) hm3
    have e : 2 ^ 6 * (b0 % 8 * 4096 + b1 % 64 * 64 + b2 % 64)
        = b0 % 8 * 262144 + b1 % 64 * 4096 + b2 % 64 * 64 := by omega
    rw [e] at this; exact this
  simp [DecodeRune, h0, h1, h2, h3, hsz, mask4, maskx, and_07, and_3F, locb, hicb, e1, e2, e3]

end utf8

/-- On a buffer whose first byte is `0x80` or more, `bytesToKey` is the UTF-8 path. -/
theorem bytesToKey_high (x : Nat) (tl : List Nat) (flag : Bool) (hx : 0x80 ≤ x) :
    bytesToKey (x :: tl) flag
      = if utf8.FullRune (x :: tl) = false then (utf8.RuneError, x :: tl)
        else ((utf8.DecodeRune (x :: tl)).1, (x :: tl).drop (utf8.DecodeRune (x :: tl)).2) := by
  apply bytesToKey_text
  · right
    simp only [isShortcut, decide_eq_false_iff_not]
    omega
  · omega

theorem completeKey_ascii (r : Nat) (h : r < 0x80) (hs : isShortcut r = false) (he : r ≠ 27) :
    CompleteKey [r] r := by
  refine ⟨by simp, by simp, ?_, ?_, ?_⟩
  · simp only [utf8.RuneError]; omega
  · rw [bytesToKey_text r [] false (Or.inr hs) he, utf8.FullRune_ascii r [] h,
      utf8.DecodeRune_ascii r [] h]
    simp
  · intro n h1 h2
    simp only [List.length_singleton] at h2
    omega

theorem completeKey_two (b0 b1 lo hi : Nat) (hb0 : 0x80 ≤ b0) (hx : utf8.first b0 < utf8.as)
    (hsz : utf8.first b0 &&& 7 = 2) (hacc : utf8.acceptRanges (utf8.first b0 >>> 4) = (lo, hi))
    (hlo : lo ≤ b1) (hhi : b1 ≤ hi) (hk : b0 % 32 * 64 + b1 % 64 ≠ utf8.RuneError) :
    CompleteKey [b0, b1] (b0 % 32 * 64 + b1 % 64) := by
  have hlo1 : (utf8.acceptRanges (utf8.first b0 >>> 4)).1 ≤ b1 := by rw [hacc]; exact hlo
  have hhi1 : b1 ≤ (utf8.acceptRanges (utf8.first b0 >>> 4)).2 := by rw [hacc]; exact hhi
  refine ⟨by simp, by simp, hk, ?_, ?_⟩
  · rw [bytesToKey_high b0 _ false hb0, utf8.FullRune_of_size b0 [b1] (by simp [hsz]),
      utf8.DecodeRune_two b0 b1 hx hsz hlo1 hhi1]
    simp
  · intro n h1 h2
    simp only [List.length_cons, List.length_nil] at h2
    obtain rfl : n = 1 := by omega
    simp only [List.take_succ_cons, List.take_zero]
    rw [bytesToKey_high b0 _ false hb0, utf8.FullRune_one b0 (by omega)]
    simp

theorem completeKey_three (b0 b1 b2 lo hi : Nat) (hb0 : 0x80 ≤ b0)
    (hx : utf8.first b0 < utf8.as) (hsz : utf8.first b0 &&& 7 = 3)
    (hacc : utf8.acceptRanges (utf8.first b0 >>> 4) = (lo, hi))
    (hlo : lo ≤ b1) (hhi : b1 ≤ hi) (h2lo : 0x80 ≤ b2) (h2hi : b2 ≤ 0xBF)
    (hk : b0 % 16 * 4096 + b1 % 64 * 64 + b2 % 64 ≠ utf8.RuneError) :
    CompleteKey [b0, b1, b2] (b0 % 16 * 4096 + b1 % 64 * 64 + b2 % 64) := by
  have hlo1 : (utf8.acceptRanges (utf8.first b0 >>> 4)).1 ≤ b1 := by rw [hacc]; exact hlo
  have hhi1 : b1 ≤ (utf8.acceptRanges (utf8.first b0 >>> 4)).2 := by rw [hacc]; exact hhi
  refine ⟨by simp, by simp, hk, ?_, ?_⟩
  · rw [bytesToKey_high b0 _ false hb0, utf8.FullRune_of_size b0 [b1, b2] (by simp [hsz]),
      utf8.DecodeRune_three b0 b1 b2 hx hsz hlo1 hhi1 h2lo h2hi]
    simp
  · intro n h1 h2
    simp only [List.length_cons, List.length_nil] at h2
    obtain rfl | rfl : n = 1 ∨ n = 2 := by omega
    · simp only [List.take_succ_cons, List.take_zero]
      rw [bytesToKey_high b0 _ false hb0, utf8.FullRune_one b0 (by omega)]
      simp
    · simp only [List.take_succ_cons, List.take_zero]
      rw [bytesToKey_high b0 _ false hb0, utf8.FullRune_two b0 b1 (by omega) hlo1 hhi1]
      simp

theorem completeKey_four (b0 b1 b2 b3 lo hi : Nat) (hb0 : 0x80 ≤ b0)
    (hx : utf8.first b0 < utf8.as) (hsz : utf8.first b0 &&& 7 = 4)
    (hacc : utf8.acceptRanges (utf8.first b0 >>> 4) = (lo, hi))
    (hlo : lo ≤ b1) (hhi : b1 ≤ hi) (h2lo : 0x80 ≤ b2) (h2hi : b2 ≤ 0xBF)
    (h3lo : 0x80 ≤ b3) (h3hi : b3 ≤ 0xBF)
    (hk : b0 % 8 * 262144 + b1 % 64 * 4096 + b2 % 64 * 64 + b3 % 64 ≠ utf8.RuneError) :
    CompleteKey [b0, b1, b2, b3] (b0 % 8 * 262144 + b1 % 64 * 4096 + b2 % 64 * 64 + b3 % 64) := by
  have hlo1 : (utf8.acceptRanges (utf8.first b0 >>> 4)).1 ≤ b1 := by rw [hacc]; exact hlo
  have hhi1 : b1 ≤ (utf8.acceptRanges (utf8.first b0 >>> 4)).2 := by rw [hacc]; exact hhi
  refine ⟨by simp, by simp, hk, ?_, ?_⟩
  · rw [bytesToKey_high b0 _ false hb0, utf8.FullRune_of_size b0 [b1, b2, b3] (by simp [hsz]),
      utf8.DecodeRune_four b0 b1 b2 b3 hx hsz hlo1 hhi1 h2lo h2hi h3lo h3hi]
    simp
  · intro n h1 h2
    simp only [List.length_cons, List.length_nil] at h2
    obtain rfl | rfl | rfl : n = 1 ∨ n = 2 ∨ n = 3 := by omega
    · simp only [List.take_succ_cons, List.take_zero]
      rw [bytesToKey_high b0 _ false hb0, utf8.FullRune_one b0 (by omega)]
      simp
    · simp only [List.take_succ_cons, List.take_zero]
      rw [bytesToKey_high b0 _ false hb0, utf8.FullRune_two b0 b1 (by omega) hlo1 hhi1]
      simp
    · simp only [List.take_succ_cons, List.take_zero]
      rw [bytesToKey_high b0 _ false hb0,
        utf8.FullRune_three b0 b1 b2 (by omega) hlo1 hhi1 h2lo h2hi]
      simp

/-- The encoding of a plain scalar is one complete key, the scalar itself. -/
theorem completeKey_scalar (r : Nat) (h : IsPlainScalar r) : CompleteKey (utf8.EncodeRune r) r := by
  obtain ⟨⟨hmax, hsur⟩, hs, he, hne⟩ := h
  simp only [KeyEscape] at he
  by_cases c1 : r < 0x80
  · have e : utf8.EncodeRune r = [r] := by
      simp only [utf8.EncodeRune, utf8.rune1Max]; rw [if_pos (by omega)]
    rw [e]; exact completeKey_ascii r c1 hs he
  by_cases c2 : r < 0x800
  · rw [utf8.EncodeRune_two r (by omega) c2]
    have hf : utf8.first (192 + r / 64) = utf8.s1 := utf8.first_s1 (by omega) (by omega)
    have hv : (192 + r / 64) % 32 * 64 + (128 + r % 64) % 64 = r := by omega
    have := completeKey_two (192 + r / 64) (128 + r % 64) 0x80 0xBF (by omega)
      (by rw [hf]; decide) (by rw [hf]; decide) (by rw [hf]; decide) (by omega) (by omega)
      (by rw [hv]; exact hne)
    rw [hv] at this; exact this
  by_cases c3 : r < 0x10000
  · rw [utf8.EncodeRune_three r (by omega) c3 hsur]
    have hv : (224 + r / 4096) % 16 * 4096 + (128 + r / 64 % 64) % 64 * 64 + (128 + r % 64) % 64
        = r := by omega
    have key : ∀ lo hi, utf8.first (224 + r / 4096) < utf8.as →
        utf8.first (224 + r / 4096) &&& 7 = 3 →
        utf8.acceptRanges (utf8.first (224 + r / 4096) >>> 4) = (lo, hi) →
        lo ≤ 128 + r / 64 % 64 → 128 + r / 64 % 64 ≤ hi →
        CompleteKey [224 + r / 4096, 128 + r / 64 % 64, 128 + r % 64] r := by
      intro lo hi a1 a2 a3 a4 a5
      have := completeKey_three (224 + r / 4096) (128 + r / 64 % 64) (128 + r % 64) lo hi
        (by omega) a1 a2 a3 a4 a5 (by omega) (by omega) (by rw [hv]; exact hne)
      rw [hv] at this; exact this
    by_cases d0 : r / 4096 = 0
    · have hf : utf8.first (224 + r / 4096) = utf8.s2 := by rw [d0]; decide
      exact key 0xA0 0xBF (by rw [hf]; decide) (by rw [hf]; decide) (by rw [hf]; decide)
        (by omega) (by omega)
    by_cases d13 : r / 4096 = 13
    · have hf : utf8.first (224 + r / 4096) = utf8.s4 := by rw [d13]; decide
      exact key 0x80 0x9F (by rw [hf]; decide) (by rw [hf]; decide) (by rw [hf]; decide)
        (by omega) (by omega)
    · have hf : utf8.first (224 + r / 4096) = utf8.s3 :=
        utf8.first_s3 (by omega) (by omega) (by omega)
      exact key 0x80 0xBF (by rw [hf]; decide) (by rw [hf]; decide) (by rw [hf]; decide)
        (by omega) (by omega)
  · rw [utf8.EncodeRune_four r (by omega) hmax]
    have hv : (240 + r / 262144) % 8 * 262144 + (128 + r / 4096 % 64) % 64 * 4096
        + (128 + r / 64 % 64) % 64 * 64 + (128 + r % 64) % 64 = r := by omega
    have key : ∀ lo hi, utf8.first (240 + r / 262144) < utf8.as →
        utf8.first (240 + r / 262144) &&& 7 = 4 →
        utf8.acceptRanges (utf8.first (240 + r / 262144) >>> 4) = (lo, hi) →
        lo ≤ 128 + r / 4096 % 64 → 128 + r / 4096 % 64 ≤ hi →
        CompleteKey [240 + r / 262144, 128 + r / 4096 % 64, 128 + r / 64 % 64, 128 + r % 64]
          r := by
      intro lo hi a1 a2 a3 a4 a5
      have := completeKey_four (240 + r / 262144) (128 + r / 4096 % 64) (128 + r / 64 % 64)
        (128 + r % 64) lo hi (by omega) a1 a2 a3 a4 a5 (by omega) (by omega) (by omega)
        (by omega) (by rw [hv]; exact hne)
      rw [hv] at this; exact this
    by_cases d0 : r / 262144 = 0
    · have hf : utf8.first (240 + r / 262144) = utf8.s5 := by rw [d0]; decide
      exact key 0x90 0xBF (by rw [hf]; decide) (by rw [hf]; decide) (by rw [hf]; decide)
        (by omega) (by omega)
    by_cases d4 : r / 262144 = 4
    · have hf : utf8.first (240 + r / 262144) = utf8.s7 := by rw [d4]; decide
      exact key 0x80 0x8F (by rw [hf]; decide) (by rw [hf]; decide) (by rw [hf]; decide)
        (by omega) (by omega)
    · have hf : utf8.first (240 + r / 262144) = utf8.s6 := utf8.first_s6 (by omega) (by omega)
      exact key 0x80 0xBF (by rw [hf]; decide) (by rw [hf]; decide) (by rw [hf]; decide)
        (by omega) (by omega)

/-! ## The matcher on escape sequences -/

theorem take3_eq (l : List Nat) (x y z : Nat) (h : l.length ≥ 3) (h0 : l.getD 0 0 = x)
    (h1 : l.getD 1 0 = y) (h2 : l.getD 2 0 = z) : l.take 3 = [x, y, z] := by
  rcases l with _ | ⟨a, _ | ⟨b, _ | ⟨c, l⟩⟩⟩
  · simp at h
  · simp at h
  · simp at h
  · simp at h0 h1 h2; simp [h0, h1, h2]

theorem take4_eq (l : List Nat) (x y z w : Nat) (h : l.length ≥ 4) (h0 : l.getD 0 0 = x)
    (h1 : l.getD 1 0 = y) (h2 : l.getD 2 0 = z) (h3 : l.getD 3 0 = w) :
    l.take 4 = [x, y, z, w] := by
  rcases l with _ | ⟨a, _ | ⟨b, _ | ⟨c, _ | ⟨d, l⟩⟩⟩⟩
  · simp at h
  · simp at h
  · simp at h
  · simp at h
  · simp at h0 h1 h2 h3; simp [h0, h1, h2, h3]

theorem take6_eq (l : List Nat) (x y z w u v : Nat) (h : l.length ≥ 6) (h0 : l.getD 0 0 = x)
    (h1 : l.getD 1 0 = y) (h2 : l.getD 2 0 = z) (h3 : l.getD 3 0 = w) (h4 : l.getD 4 0 = u)
    (h5 : l.getD 5 0 = v) : l.take 6 = [x, y, z, w, u, v] := by
  rcases l with _ | ⟨a, _ | ⟨b, _ | ⟨c, _ | ⟨d, _ | ⟨e, _ | ⟨f, l⟩⟩⟩⟩⟩⟩
  · simp at h
  · simp at h
  · simp at h
  · simp at h
  · simp at h
  · simp at h
  · simp at h0 h1 h2 h3 h4 h5; simp [h0, h1, h2, h3, h4, h5]

theorem bytesToKey_esc_off (tl : List Nat) (r : Nat × List Nat)
    (hr : bytesToKey (27 :: tl) false = r) :
    (∃ sk ∈ recognized, (27 :: tl).take sk.1.length = sk.1 ∧
      r = (sk.2, (27 :: tl).drop sk.1.length)) ∨ r = fallbackKey (27 :: tl) := by
  unfold bytesToKey at hr
  rw [if_neg (show ¬ (27 :: tl).length = 0 by simp)] at hr
  rw [if_neg (show ¬ (false = false ∧ (27 :: tl).getD 0 0 = 1) by simp)] at hr
  rw [if_neg (show ¬ (false = false ∧ (27 :: tl).getD 0 0 = 2) by simp)] at hr
  rw [if_neg (show ¬ (false = false ∧ (27 :: tl).getD 0 0 = 5) by simp)] at hr
  rw [if_neg (show ¬ (false = false ∧ (27 :: tl).getD 0 0 = 6) by simp)] at hr
  rw [if_neg (show ¬ (false = false ∧ (27 :: tl).getD 0 0 = 8) by simp)] at hr
  rw [if_neg (show ¬ (false = false ∧ (27 :: tl).getD 0 0 = 11) by simp)] at hr
  rw [if_neg (show ¬ (false = false ∧ (27 :: tl).getD 0 0 = 12) by simp)] at hr
  rw [if_neg (show ¬ (false = false ∧ (27 :: tl).getD 0 0 = 23) by simp)] at hr
  rw [if_neg (show ¬ (false = false ∧ (27 :: tl).getD 0 0 = 14) by simp)] at hr
  rw [if_neg (show ¬ (false = false ∧ (27 :: tl).getD 0 0 = 16) by simp)] at hr
  rw [if_neg (show ¬ ((27 :: tl).getD 0 0 ≠ KeyEscape) by simp [KeyEscape])] at hr
  by_cases h : false = false ∧ (27 :: tl).length ≥ 3 ∧ (27 :: tl).getD 0 0 = KeyEscape ∧ (27 :: tl).getD 1 0 = 91
      ∧ (27 :: tl).getD 2 0 = 65
  · rw [if_pos h] at hr; left
    exact ⟨([27, 91, 65], KeyUp), by simp [recognized],
      take3_eq _ _ _ _ h.2.1 h.2.2.1 h.2.2.2.1 h.2.2.2.2, hr.symm⟩
  rw [if_neg h] at hr; clear h
  by_cases h : false = false ∧ (27 :: tl).length ≥ 3 ∧ (27 :: tl).getD 0 0 = KeyEscape ∧ (27 :: tl).getD 1 0 = 91
      ∧ (27 :: tl).getD 2 0 = 66
  · rw [if_pos h] at hr; left
    exact ⟨([27, 91, 66], KeyDown), by simp [recognized],
      take3_eq _ _ _ _ h.2.1 h.2.2.1 h.2.2.2.1 h.2.2.2.2, hr.symm⟩
  rw [if_neg h] at hr; clear h
  by_cases h : false = false ∧ (27 :: tl).length ≥ 3 ∧ (27 :: tl).getD 0 0 = KeyEscape ∧ (27 :: tl).getD 1 0 = 91
      ∧ (27 :: tl).getD 2 0 = 67
  · rw [if_pos h] at hr; left
    exact ⟨([27, 91, 67], KeyRight), by simp [recognized],
      take3_eq _ _ _ _ h.2.1 h.2.2.1 h.2.2.2.1 h.2.2.2.2, hr.symm⟩
  rw [if_neg h] at hr; clear h
  by_cases h : false = false ∧ (27 :: tl).length ≥ 3 ∧ (27 :: tl).getD 0 0 = KeyEscape ∧ (27 :: tl).getD 1 0 = 91
      ∧ (27 :: tl).getD 2 0 = 68
  · rw [if_pos h] at hr; left
    exact ⟨([27, 91, 68], KeyLeft), by simp [recognized],
      take3_eq _ _ _ _ h.2.1 h.2.2.1 h.2.2.2.1 h.2.2.2.2, hr.symm⟩
  rw [if_neg h] at hr; clear h
  by_cases h : false = false ∧ (27 :: tl).length ≥ 3 ∧ (27 :: tl).getD 0 0 = KeyEscape ∧ (27 :: tl).getD 1 0 = 91
      ∧ (27 :: tl).getD 2 0 = 72
  · rw [if_pos h] at hr; left
    exact ⟨([27, 91, 72], KeyHome), by simp [recognized],
      take3_eq _ _ _ _ h.2.1 h.2.2.1 h.2.2.2.1 h.2.2.2.2, hr.symm⟩
  rw [if_neg h] at hr; clear h
  by_cases h : false = false ∧ (27 :: tl).length ≥ 3 ∧ (27 :: tl).getD 0 0 = KeyEscape ∧ (27 :: tl).getD 1 0 = 91
      ∧ (27 :: tl).getD 2 0 = 70
  · rw [if_pos h] at hr; left
    exact ⟨([27, 91, 70], KeyEnd), by simp [recognized],
      take3_eq _ _ _ _ h.2.1 h.2.2.1 h.2.2.2.1 h.2.2.2.2, hr.symm⟩
  rw [if_neg h] at hr; clear h
  by_cases h : false = false ∧ (27 :: tl).length ≥ 3 ∧ (27 :: tl).getD 0 0 = KeyEscape ∧ (27 :: tl).getD 1 0 = 91
      ∧ (27 :: tl).getD 2 0 = 90
  · rw [if_pos h] at hr; left
    exact ⟨([27, 91, 90], KeyTabOut), by simp [recognized],
      take3_eq _ _ _ _ h.2.1 h.2.2.1 h.2.2.2.1 h.2.2.2.2, hr.symm⟩
  rw [if_neg h] at hr; clear h
  by_cases h : false = false ∧ (27 :: tl).length ≥ 4 ∧ (27 :: tl).getD 0 0 = KeyEscape ∧ (27 :: tl).getD 1 0 = 91
      ∧ (27 :: tl).getD 2 0 = 0x33 ∧ (27 :: tl).getD 3 0 = 0x7e
  · rw [if_pos h] at hr; left
    exact ⟨([27, 91, 51, 126], KeyDel), by simp [recognized],
      take4_eq _ _ _ _ _ h.2.1 h.2.2.1 h.2.2.2.1 h.2.2.2.2.1 h.2.2.2.2.2, hr.symm⟩
  rw [if_neg h] at hr; clear h
  by_cases h : false = false ∧ (27 :: tl).length ≥ 6 ∧ (27 :: tl).getD 0 0 = KeyEscape ∧ (27 :: tl).getD 1 0 = 91
      ∧ (27 :: tl).getD 2 0 = 49 ∧ (27 :: tl).getD 3 0 = 59 ∧ (27 :: tl).getD 4 0 = 51 ∧ (27 :: tl).getD 5 0 = 67
  · rw [if_pos h] at hr; left
    exact ⟨([27, 91, 49, 59, 51, 67], KeyAltRight), by simp [recognized],
      take6_eq _ _ _ _ _ _ _ h.2.1 h.2.2.1 h.2.2.2.1 h.2.2.2.2.1 h.2.2.2.2.2.1
        h.2.2.2.2.2.2.1 h.2.2.2.2.2.2.2, hr.symm⟩
  rw [if_neg h] at hr; clear h
  by_cases h : false = false ∧ (27 :: tl).length ≥ 6 ∧ (27 :: tl).getD 0 0 = KeyEscape ∧ (27 :: tl).getD 1 0 = 91
      ∧ (27 :: tl).getD 2 0 = 49 ∧ (27 :: tl).getD 3 0 = 59 ∧ (27 :: tl).getD 4 0 = 51 ∧ (27 :: tl).getD 5 0 = 68
  · rw [if_pos h] at hr; left
    exact ⟨([27, 91, 49, 59, 51, 68], KeyAltLeft), by simp [recognized],
      take6_eq _ _ _ _ _ _ _ h.2.1 h.2.2.1 h.2.2.2.1 h.2.2.2.2.1 h.2.2.2.2.2.1
        h.2.2.2.2.2.2.1 h.2.2.2.2.2.2.2, hr.symm⟩
  rw [if_neg h] at hr; clear h
  by_cases h : false = false ∧ (27 :: tl).length ≥ 6 ∧ (27 :: tl).take 6 = pasteStart
  · rw [if_pos h] at hr; left
    exact ⟨([27, 91, 50, 48, 48, 126], KeyPasteStart), by simp [recognized], h.2.2, hr.symm⟩
  rw [if_neg h] at hr; clear h
  rw [if_neg (show ¬ (false = true ∧ (27 :: tl).length ≥ 6 ∧ (27 :: tl).take 6 = pasteEnd) by simp)] at hr
  right; exact hr.symm

/-- On a buffer that starts with ESC, `bytesToKey` either matches one of the recognized sequences
at the front of the buffer and consumes exactly it, or runs the final loop. -/
theorem bytesToKey_esc (tl : List Nat) (flag : Bool) :
    (∃ sk ∈ recognizedFor flag, (27 :: tl).take sk.1.length = sk.1 ∧
      bytesToKey (27 :: tl) flag = (sk.2, (27 :: tl).drop sk.1.length)) ∨
    bytesToKey (27 :: tl) flag = fallbackKey (27 :: tl) := by
  cases flag with
  | true =>
    by_cases h : (27 :: tl).length ≥ 6 ∧ (27 :: tl).take 6 = pasteEnd
    · left
      refine ⟨([27, 91, 50, 48, 49, 126], KeyPasteEnd), by simp [recognizedFor], ?_, ?_⟩
      · exact h.2
      · have h1 := h.1
        simp only [List.length_cons, ge_iff_le] at h1
        simp [bytesToKey, KeyEscape, h.2, h.1]
        omega
    · right
      simp only [List.length_cons, ge_iff_le, List.take_succ_cons] at h
      simp [bytesToKey, KeyEscape, fallbackKey]
      intro h1 h2
      exact absurd ⟨by omega, h2⟩ h
  | false => exact bytesToKey_esc_off tl _ rfl

theorem scanTerminator_none (b : List Nat) (h : ∀ c ∈ b, isTerminator c = false) :
    scanTerminator b = none := by
  induction b with
  | nil => rfl
  | cons x b ih =>
    simp only [scanTerminator, h x (List.mem_cons_self _ _)]
    exact ih (fun c hc => h c (List.mem_cons_of_mem _ hc))

theorem scanTerminator_first (init : List Nat) (z : Nat) (rest : List Nat)
    (h : ∀ c ∈ init, isTerminator c = false) (hz : isTerminator z = true) :
    scanTerminator (init ++ z :: rest) = some rest := by
  induction init with
  | nil => simp [scanTerminator, hz]
  | cons x init ih =>
    simp only [List.cons_append, scanTerminator, h x (List.mem_cons_self _ _)]
    exact ih (fun c hc => h c (List.mem_cons_of_mem _ hc))

theorem recognized_has_terminator :
    ∀ sk ∈ recognized, ∃ c ∈ sk.1, isTerminator c = true := by decide

/-- With the paste flag off, an ESC-led buffer without a terminator is incomplete. -/
theorem bytesToKey_esc_incomplete (tl : List Nat) (h : ∀ c ∈ tl, isTerminator c = false) :
    bytesToKey (27 :: tl) false = (utf8.RuneError, 27 :: tl) := by
  have hall : ∀ c ∈ 27 :: tl, isTerminator c = false := by
    intro c hc
    rcases List.mem_cons.1 hc with rfl | hc
    · decide
    · exact h c hc
  rcases bytesToKey_esc_off tl _ rfl with ⟨sk, hsk, htake, _⟩ | hfb
  · obtain ⟨c, hc, hterm⟩ := recognized_has_terminator sk hsk
    rw [← htake] at hc
    have := hall c (List.mem_of_mem_take hc)
    rw [this] at hterm
    exact absurd hterm (by simp)
  · rw [hfb, fallbackKey, scanTerminator_none _ hall]

/-- With the paste flag off, an ESC-led buffer whose only terminator is its last byte and which
is not a recognized sequence resolves to `KeyUnknown` and is consumed whole. -/
theorem bytesToKey_esc_unknown (mid : List Nat) (z : Nat)
    (h : ∀ c ∈ mid, isTerminator c = false) (hz : isTerminator z = true)
    (hnot : (27 :: mid ++ [z]) ∉ recognized.map Prod.fst) :
    bytesToKey (27 :: mid ++ [z]) false = (KeyUnknown, []) := by
  have hall : ∀ c ∈ 27 :: mid, isTerminator c = false := by
    intro c hc
    rcases List.mem_cons.1 hc with rfl | hc
    · decide
    · exact h c hc
  have hb : 27 :: (mid ++ [z]) = (27 :: mid) ++ [z] := rfl
  rcases bytesToKey_esc_off (mid ++ [z]) _ rfl with ⟨sk, hsk, htake, _⟩ | hfb
  · exfalso
    obtain ⟨c, hc, hterm⟩ := recognized_has_terminator sk hsk
    by_cases hn : sk.1.length ≤ (27 :: mid).length
    · rw [hb, List.take_append_of_le_length hn] at htake
      rw [← htake] at hc
      have := hall c (List.mem_of_mem_take hc)
      rw [this] at hterm
      exact absurd hterm (by simp)
    · have hlen : (27 :: (mid ++ [z])).length ≤ sk.1.length := by
        simp only [List.length_cons, List.length_append, List.length_nil] at hn ⊢
        omega
      rw [List.take_of_length_le hlen] at htake
      apply hnot
      rw [List.cons_append, htake]
      exact List.mem_map_of_mem _ hsk
  · have e : (27 :: mid ++ [z]) = 27 :: (mid ++ [z]) := rfl
    rw [e, hfb, fallbackKey, hb, scanTerminator_first _ z [] hall hz]

theorem completeKey_of_check (s : List Nat) (k : Nat) (h : checkComplete s k = true) :
    CompleteKey s k := by
  simp only [checkComplete, Bool.and_eq_true, decide_eq_true_eq, List.all_eq_true, List.mem_range,
    Bool.or_eq_true, beq_iff_eq] at h
  obtain ⟨⟨h1, h2, h3, h4⟩, h5⟩ := h
  refine ⟨h1, h2, h3, h4, ?_⟩
  intro n hn hlt
  rcases h5 n hlt with h0 | h0
  · omega
  · exact h0

theorem completeKey_shortcut (c : Nat) (h : isShortcut c = true) :
    CompleteKey [c] (shortcutKey c) := by
  simp only [isShortcut, decide_eq_true_eq] at h
  rcases h with rfl | rfl | rfl | rfl | rfl | rfl | rfl | rfl | rfl | rfl <;>
    exact completeKey_of_check _ _ (by decide)

theorem completeKey_recognized : ∀ sk ∈ recognized, checkComplete sk.1 sk.2 = true := by
  decide

theorem completeKey_unknown (s : List Nat) (h : IsUnknownSeq s) : CompleteKey s KeyUnknown := by
  obtain ⟨mid, z, rfl, hlen, hmid, hz, hnot⟩ := h
  refine ⟨by simp, by simp; omega, by decide, bytesToKey_esc_unknown mid z hmid hz hnot, ?_⟩
  intro n hn hlt
  have hn1 : n ≤ (27 :: mid).length := by
    simp only [List.cons_append, List.length_cons, List.length_append, List.length_nil] at hlt ⊢
    omega
  have e : (27 :: mid ++ [z]).take n = (27 :: mid).take n := by
    rw [List.cons_append, ← List.cons_append, List.take_append_of_le_length hn1]
  rw [e]
  obtain ⟨m, rfl⟩ : ∃ m, n = m + 1 := ⟨n - 1, by omega⟩
  rw [List.take_succ_cons]
  exact bytesToKey_esc_incomplete _ (fun c hc => hmid c (List.mem_of_mem_take hc))

/-- Every well-formed token is one complete key. -/
theorem completeKey_token (t : Token) (h : t.WellFormed) : CompleteKey t.bytes t.key := by
  cases t with
  | scalar r => exact completeKey_scalar r h
  | shortcut c => exact completeKey_shortcut c h
  | sequence s k => exact completeKey_of_check _ _ (completeKey_recognized (s, k) h)
  | unknown s => exact completeKey_unknown s h

/-! ## General facts about the matcher -/

namespace utf8

theorem val2 (a b : Nat) : ((a &&& mask2) <<< 6) ||| (b &&& maskx) = a % 32 * 64 + b % 64 := by
  have hm : b % 64 < 64 := Nat.mod_lt _ (by omega)
  simp only [mask2, maskx, and_1F, and_3F, shl6_or _ _ hm]

theorem val3 (a b c : Nat) :
    ((a &&& mask3) <<< 12) ||| ((b &&& maskx) <<< 6) ||| (c &&& maskx)
      = a % 16 * 4096 + b % 64 * 64 + c % 64 := by
  have hm1 : b % 64 < 64 := Nat.mod_lt _ (by omega)
  have hm2 : c % 64 < 64 := Nat.mod_lt _ (by omega)
  have e1 : (a % 16) <<< 12 ||| (b % 64) <<< 6 = a % 16 * 4096 + b % 64 * 64 := by
    rw [Nat.shiftLeft_eq (b % 64), shl12_or _ _ (by omega)]
  have e2 : a % 16 * 4096 + b % 64 * 64 ||| c % 64 = a % 16 * 4096 + b % 64 * 64 + c % 64 := by
    have := or_eq_add 6 (a % 16 * 64 + b % 64) (c % 64) hm2
    have e : 2 ^ 6 * (a % 16 * 64 + b % 64) = a % 16 * 4096 + b % 64 * 64 := by omega
    rw [e] at this; exact this
  simp only [mask3, maskx, and_0F, and_3F, e1, e2]

theorem val4 (a b c d : Nat) :
    ((a &&& mask4) <<< 18) ||| ((b &&& maskx) <<< 12) ||| ((c &&& maskx) <<< 6) ||| (d &&& maskx)
      = a % 8 * 262144 + b % 64 * 4096 + c % 64 * 64 + d % 64 := by
  have hm1 : b % 64 < 64 := Nat.mod_lt _ (by omega)
  have hm2 : c % 64 < 64 := Nat.mod_lt _ (by omega)
  have hm3 : d % 64 < 64 := Nat.mod_lt _ (by omega)
  have e1 : (a % 8) <<< 18 ||| (b % 64) <<< 12 = a % 8 * 262144 + b % 64 * 4096 := by
    rw [Nat.shiftLeft_eq (b % 64), shl18_or _ _ (by omega)]
  have e2 : a % 8 * 262144 + b % 64 * 4096 ||| (c % 64) <<< 6
      = a % 8 * 262144 + b % 64 * 4096 + c % 64 * 64 := by
    have := or_eq_add 12 (a % 8 * 64 + b % 64) (c % 64 * 64) (by omega)
    have e : 2 ^ 12 * (a % 8 * 64 + b % 64) = a % 8 * 262144 + b % 64 * 4096 := by omega
    rw [e] at this; rw [Nat.shiftLeft_eq (c % 64)]; exact this
  have e3 : a % 8 * 262144 + b % 64 * 4096 + c % 64 * 64 ||| d % 64
      = a % 8 * 262144 + b % 64 * 4096 + c % 64 * 64 + d % 64 := by
    have := or_eq_add 6 (a % 8 * 4096 + b % 64 * 64 + c % 64) (d % 64) hm3
    have e : 2 ^ 6 * (a % 8 * 4096 + b % 64 * 64 + c % 64)
        = a % 8 * 262144 + b % 64 * 4096 + c % 64 * 64 := by omega
    rw [e] at this; exact this
  simp only [mask4, maskx, and_07, and_3F, e1, e2, e3]

/-- The classes of the table `first`. -/
theorem first_cases (b : Nat) :
    (b < 0x80 ∧ first b = as) ∨ (((0x80 ≤ b ∧ b < 0xC2) ∨ 0xF5 ≤ b) ∧ first b = xx) ∨
    (0xC2 ≤ b ∧ b < 0xE0 ∧ first b = s1) ∨
    (b = 0xE0 ∧ first b = s2) ∨ (0xE1 ≤ b ∧ b < 0xF0 ∧ b ≠ 0xED ∧ first b = s3) ∨
    (b = 0xED ∧ first b = s4) ∨ (b = 0xF0 ∧ first b = s5) ∨
    (0xF1 ≤ b ∧ b < 0xF4 ∧ first b = s6) ∨ (b = 0xF4 ∧ first b = s7) := by
  by_cases h1 : b < 0x80
  · exact Or.inl ⟨h1, first_as h1⟩
  by_cases h2 : b < 0xC2
  · exact Or.inr (Or.inl ⟨by omega, first_xx_low (by omega) h2⟩)
  by_cases h3 : b < 0xE0
  · exact Or.inr (Or.inr (Or.inl ⟨by omega, h3, first_s1 (by omega) h3⟩))
  by_cases h4 : b = 0xE0
  · exact Or.inr (Or.inr (Or.inr (Or.inl ⟨h4, by rw [h4]; decide⟩)))
  by_cases h5 : b = 0xED
  · exact Or.inr (Or.inr (Or.inr (Or.inr (Or.inr (Or.inl ⟨h5, by rw [h5]; decide⟩)))))
  by_cases h6 : b < 0xF0
  · exact Or.inr (Or.inr (Or.inr (Or.inr (Or.inl
      ⟨by omega, h6, h5, first_s3 (by omega) h6 h5⟩))))
  by_cases h7 : b = 0xF0
  · exact Or.inr (Or.inr (Or.inr (Or.inr (Or.inr (Or.inr (Or.inl ⟨h7, by rw [h7]; decide⟩))))))
  by_cases h8 : b < 0xF4
  · exact Or.inr (Or.inr (Or.inr (Or.inr (Or.inr (Or.inr (Or.inr (Or.inl
      ⟨by omega, h8, first_s6 (by omega) h8⟩)))))))
  by_cases h9 : b = 0xF4
  · exact Or.inr (Or.inr (Or.inr (Or.inr (Or.inr (Or.inr (Or.inr (Or.inr
      ⟨h9, by rw [h9]; decide⟩)))))))
  · exact Or.inr (Or.inl ⟨by omega, first_xx_high (by omega)⟩)

/-- `DecodeRune` on a lead byte of a multi-byte encoding, with the rune values in arithmetic. -/
theorem DecodeRune_lead (b0 : Nat) (tl : List Nat) (hx : first b0 < as) :
    DecodeRune (b0 :: tl) =
      if tl.length + 1 < first b0 &&& 7 then (RuneError, 1)
      else if tl.getD 0 0 < (acceptRanges (first b0 >>> 4)).1
          ∨ (acceptRanges (first b0 >>> 4)).2 < tl.getD 0 0 then (RuneError, 1)
      else if first b0 &&& 7 ≤ 2 then (b0 % 32 * 64 + tl.getD 0 0 % 64, 2)
      else if tl.getD 1 0 < 0x80 ∨ 0xBF < tl.getD 1 0 then (RuneError, 1)
      else if first b0 &&& 7 ≤ 3 then
        (b0 % 16 * 4096 + tl.getD 0 0 % 64 * 64 + tl.getD 1 0 % 64, 3)
      else if tl.getD 2 0 < 0x80 ∨ 0xBF < tl.getD 2 0 then (RuneError, 1)
      else (b0 % 8 * 262144 + tl.getD 0 0 % 64 * 4096 + tl.getD 1 0 % 64 * 64
        + tl.getD 2 0 % 64, 4) := by
  have h0 : ¬ first b0 ≥ as := by omega
  have hn : ¬ tl.length + 1 < 1 := by omega
  unfold DecodeRune
  simp only [List.getD_cons_zero, List.getD_cons_succ, List.length_cons, hn, h0, if_false, val2,
    val3, val4, locb, hicb]

theorem DecodeRune_xx (b0 : Nat) (tl : List Nat) (hx : first b0 = xx) :
    DecodeRune (b0 :: tl) = (RuneError, 1) := by
  have e : (65533 : Nat) &&& 4294967295 = 65533 := by decide
  simp [DecodeRune, hx, xx, as, RuneError, e]

end utf8

namespace utf8

/-- `DecodeRune` returns `RuneError` or a Unicode scalar value, never a surrogate. -/
theorem DecodeRune_range (p : List Nat) :
    (DecodeRune p).1 = RuneError ∨ IsScalar (DecodeRune p).1 := by
  rcases p with _ | ⟨b0, tl⟩
  · left; rfl
  rcases first_cases b0 with ⟨h, _⟩ | ⟨_, hf⟩ | ⟨h1, h2, hf⟩ | ⟨h, hf⟩ | ⟨h1, h2, h3, hf⟩ | ⟨h, hf⟩ |
    ⟨h, hf⟩ | ⟨h1, h2, hf⟩ | ⟨h, hf⟩
  · rw [DecodeRune_ascii b0 tl h]
    right; unfold IsScalar; dsimp only; omega
  · rw [DecodeRune_xx b0 tl hf]
    left; rfl
  ·
    rw [DecodeRune_lead b0 tl (by rw [hf]; decide), hf]
    simp only [show s1 &&& 7 = 2 from by decide,
      show acceptRanges (s1 >>> 4) = (0x80, 0xBF) from by decide]
    split_ifs
    all_goals first
      | (left; rfl)
      | (right; unfold IsScalar; dsimp only; omega)
  ·
    rw [DecodeRune_lead b0 tl (by rw [hf]; decide), hf]
    simp only [show s2 &&& 7 = 3 from by decide,
      show acceptRanges (s2 >>> 4) = (0xA0, 0xBF) from by decide]
    split_ifs
    all_goals first
      | (left; rfl)
      | (right; unfold IsScalar; dsimp only; omega)
  ·
    rw [DecodeRune_lead b0 tl (by rw [hf]; decide), hf]
    simp only [show s3 &&& 7 = 3 from by decide,
      show acceptRanges (s3 >>> 4) = (0x80, 0xBF) from by decide]
    split_ifs
    all_goals first
      | (left; rfl)
      | (right; unfold IsScalar; dsimp only; omega)
  ·
    rw [DecodeRune_lead b0 tl (by rw [hf]; decide), hf]
    simp only [show s4 &&& 7 = 3 from by decide,
      show acceptRanges (s4 >>> 4) = (0x80, 0x9F) from by decide]
    split_ifs
    all_goals first
      | (left; rfl)
      | (right; unfold IsScalar; dsimp only; omega)
  ·
    rw [DecodeRune_lead b0 tl (by rw [hf]; decide), hf]
    simp only [show s5 &&& 7 = 4 from by decide,
      show acceptRanges (s5 >>> 4) = (0x90, 0xBF) from by decide]
    split_ifs
    all_goals first
      | (left; rfl)
      | (right; unfold IsScalar; dsimp only; omega)
  ·
    rw [DecodeRune_lead b0 tl (by rw [hf]; decide), hf]
    simp only [show s6 &&& 7 = 4 from by decide,
      show acceptRanges (s6 >>> 4) = (0x80, 0xBF) from by decide]
    split_ifs
    all_goals first
      | (left; rfl)
      | (right; unfold IsScalar; dsimp only; omega)
  ·
    rw [DecodeRune_lead b0 tl (by rw [hf]; decide), hf]
    simp only [show s7 &&& 7 = 4 from by decide,
      show acceptRanges (s7 >>> 4) = (0x80, 0x8F) from by decide]
    split_ifs
    all_goals first
      | (left; rfl)
      | (right; unfold IsScalar; dsimp only; omega)

end utf8

theorem bytesToKey_shortcut (c : Nat) (tl : List Nat) (h : isShortcut c = true) :
    bytesToKey (c :: tl) false = (shortcutKey c, tl) := by
  simp only [isShortcut, decide_eq_true_eq] at h
  rcases h with rfl | rfl | rfl | rfl | rfl | rfl | rfl | rfl | rfl | rfl <;>
    simp [bytesToKey, shortcutKey]

theorem shortcutKey_ne_unknown (c : Nat) : shortcutKey c ≠ KeyUnknown := by
  unfold shortcutKey
  split_ifs <;> decide

theorem scanTerminator_some (b rest : List Nat) (h : scanTerminator b = some rest) :
    ∃ init z, b = init ++ z :: rest ∧ isTerminator z = true := by
  induction b with
  | nil => simp [scanTerminator] at h
  | cons x b ih =>
    by_cases hx : isTerminator x = true
    · simp only [scanTerminator, hx, if_true, Option.some.injEq] at h
      exact ⟨[], x, by simp [h], hx⟩
    · simp only [scanTerminator, hx] at h
      obtain ⟨init, z, h1, h2⟩ := ih h
      exact ⟨x :: init, z, by simp [h1], h2⟩

/-- The remainder that `bytesToKey` returns is the buffer without some of its first bytes. -/
theorem bytesToKey_drop (b : List Nat) (flag : Bool) :
    ∃ n, (bytesToKey b flag).2 = b.drop n := by
  rcases b with _ | ⟨x, tl⟩
  · exact ⟨0, rfl⟩
  by_cases hx : x = 27
  · subst hx
    rcases bytesToKey_esc tl flag with ⟨sk, _, _, hr⟩ | hr
    · exact ⟨sk.1.length, by rw [hr]⟩
    · rw [hr, fallbackKey]
      split
      · rename_i rest hscan
        obtain ⟨init, z, h1, _⟩ := scanTerminator_some _ _ hscan
        refine ⟨init.length + 1, ?_⟩
        rw [h1]
        simp
      · exact ⟨0, rfl⟩
  by_cases hs : flag = false ∧ isShortcut x = true
  · obtain ⟨rfl, hs⟩ := hs
    rw [bytesToKey_shortcut x tl hs]
    exact ⟨1, rfl⟩
  · have hc : flag = true ∨ isShortcut x = false := by
      cases flag <;> simp_all
    rw [bytesToKey_text x tl flag hc hx]
    split_ifs
    · exact ⟨0, rfl⟩
    · exact ⟨_, rfl⟩

theorem bytesToKey_length_le (b : List Nat) (flag : Bool) :
    (bytesToKey b flag).2.length ≤ b.length := by
  obtain ⟨n, hn⟩ := bytesToKey_drop b flag
  rw [hn, List.length_drop]
  omega

theorem bytesToKey_mem (b : List Nat) (flag : Bool) (c : Nat)
    (hc : c ∈ (bytesToKey b flag).2) : c ∈ b := by
  obtain ⟨n, hn⟩ := bytesToKey_drop b flag
  rw [hn] at hc
  exact List.mem_of_mem_drop hc

theorem recognizedFor_ne_unknown :
    ∀ flag : Bool, ∀ sk ∈ recognizedFor flag, sk.2 ≠ KeyUnknown := by decide

/-- The matcher returns `KeyUnknown` only for a buffer that starts with ESC and holds a
terminator after it. -/
theorem bytesToKey_unknown (b : List Nat) (flag : Bool)
    (h : (bytesToKey b flag).1 = KeyUnknown) :
    ∃ tl, b = 27 :: tl ∧ ∃ c ∈ tl, isTerminator c = true := by
  rcases b with _ | ⟨x, tl⟩
  · have hk : utf8.RuneError = KeyUnknown := h
    exact absurd hk (by decide)
  by_cases hx : x = 27
  · subst hx
    refine ⟨tl, rfl, ?_⟩
    rcases bytesToKey_esc tl flag with ⟨sk, hsk, _, hr⟩ | hr
    · rw [hr] at h
      exact absurd h (recognizedFor_ne_unknown flag sk hsk)
    · rw [hr, fallbackKey] at h
      split at h
      · rename_i rest hscan
        have h27 : isTerminator 27 = false := by decide
        simp only [scanTerminator, h27] at hscan
        obtain ⟨init, z, h1, h2⟩ := scanTerminator_some _ _ hscan
        exact ⟨z, by rw [h1]; simp, h2⟩
      · have hk : utf8.RuneError = KeyUnknown := h
        exact absurd hk (by decide)
  exfalso
  by_cases hs : flag = false ∧ isShortcut x = true
  · obtain ⟨rfl, hs⟩ := hs
    rw [bytesToKey_shortcut x tl hs] at h
    exact shortcutKey_ne_unknown x h
  · have hc : flag = true ∨ isShortcut x = false := by
      cases flag <;> simp_all
    rw [bytesToKey_text x tl flag hc hx] at h
    split_ifs at h
    · have hk : utf8.RuneError = KeyUnknown := h
      exact absurd hk (by decide)
    · rcases utf8.DecodeRune_range (x :: tl) with hr | hr
      · have hk : (utf8.DecodeRune (x :: tl)).1 = KeyUnknown := h
        rw [hr] at hk
        exact absurd hk (by decide)
      · have hk : (utf8.DecodeRune (x :: tl)).1 = KeyUnknown := h
        rw [hk] at hr
        exact absurd hr (by decide)

theorem incompleteKey_nil : IncompleteKey [] :=
  ⟨by simp, fun n h1 h2 => by simp at h2; omega⟩

/-- Every strict beginning of a complete key is an incomplete sequence. -/
theorem incompleteKey_take (s : List Nat) (k : Nat) (hs : CompleteKey s k) (n : Nat)
    (hn : n < s.length) : IncompleteKey (s.take n) := by
  obtain ⟨_, hlen7, _, _, hpre⟩ := hs
  have hl : (s.take n).length = n := by simp; omega
  refine ⟨by omega, ?_⟩
  intro m hm hmn
  rw [hl] at hmn
  rw [List.take_take, Nat.min_eq_left hmn]
  exact hpre m hm (by omega)

/-- One `ReadKey` call on an incomplete sequence followed by the end of input: no key, the
error `EOF`, and the bytes left pending. -/
theorem loop_incomplete (t : List Nat) (ht : IncompleteKey t) :
    ReadKey.loop [] (bytesReader t)
      = ((KeyUnknown, some ReadError.EOF), { inBuf := t, reader := [] }) := by
  have h := loop_pendingAfter t [] [] t (pendingAfter_incomplete t ht t [] rfl)
  simpa [ReadKey.loop] using h

theorem keys_of_segments (segs : List (List Nat × Nat)) (t : List Nat)
    (hsegs : ∀ sk ∈ segs, CompleteKey sk.1 sk.2) (ht : IncompleteKey t) :
    keysOfInput ((segs.map Prod.fst).flatten ++ t)
      = (segs.map (fun sk => (sk.2, [])), some ReadError.EOF) := by
  rw [keysOfInput_eq, keysFrom_segments segs t hsegs ht]

theorem keys_of_tokens (pre : List (List Nat × Nat)) (ts : List Token)
    (post : List (List Nat × Nat)) (hpre : ∀ sk ∈ pre, CompleteKey sk.1 sk.2)
    (h : ∀ t ∈ ts, t.WellFormed) (hpost : ∀ sk ∈ post, CompleteKey sk.1 sk.2) :
    keysOfInput ((pre.map Prod.fst).flatten ++ (ts.map Token.bytes).flatten
        ++ (post.map Prod.fst).flatten)
      = (pre.map (fun sk => (sk.2, [])) ++ ts.map (fun t => (t.key, []))
          ++ post.map (fun sk => (sk.2, [])), some ReadError.EOF) := by
  have hall : ∀ sk ∈ pre ++ ts.map (fun t => (t.bytes, t.key)) ++ post,
      CompleteKey sk.1 sk.2 := by
    intro sk hsk
    simp only [List.mem_append, List.mem_map] at hsk
    rcases hsk with (hsk | ⟨t, ht, rfl⟩) | hsk
    · exact hpre sk hsk
    · exact completeKey_token t (h t ht)
    · exact hpost sk hsk
  have := keys_of_segments _ [] hall incompleteKey_nil
  simpa [List.map_append, List.flatten_append, Function.comp_def] using this

theorem incompleteKey_of_check (t : List Nat) (h : checkIncomplete t = true) :
    IncompleteKey t := by
  simp only [checkIncomplete, Bool.and_eq_true, decide_eq_true_eq, List.all_eq_true,
    List.mem_range, Bool.or_eq_true, beq_iff_eq] at h
  obtain ⟨h1, h2⟩ := h
  refine ⟨h1, ?_⟩
  intro n hn hle
  rcases h2 n (by omega) with h0 | h0
  · omega
  · exact h0

/-- A strict beginning of a list is a `take` of it. -/
theorem take_of_strict (p s : List Nat) (hp : p <+: s) (hne : p ≠ s) :
    ∃ n, n < s.length ∧ p = s.take n := by
  refine ⟨p.length, ?_, List.prefix_iff_eq_take.1 hp⟩
  have hle := hp.length_le
  rcases Nat.lt_or_ge p.length s.length with h | h
  · exact h
  · exact absurd (hp.eq_of_length (by omega)) hne

/-- A failing read while no key is resolved ends the call with that error. -/
theorem loop_fail (bs : List Nat) (rd : List ReadResult) (inBuf buf : List Nat) (e : ReadError)
    (hp : pendingAfter inBuf bs = some buf) (hr : (ReadByte rd).1 = ReadResult.fail e) :
    ReadKey.loop inBuf (bytesReader bs ++ rd)
      = ((KeyUnknown, some e), { inBuf := buf, reader := (ReadByte rd).2 }) := by
  rw [loop_pendingAfter bs rd inBuf buf hp]
  rcases rd with _ | ⟨r, rest⟩
  · simp only [ReadByte, ReadResult.fail.injEq] at hr
    subst hr; rfl
  · simp only [ReadByte] at hr
    subst hr; rfl

theorem loop_error (evs : List ReadResult) : ∀ (inBuf : List Nat) (e : ReadError),
    (ReadKey.loop inBuf evs).1.2 = some e →
      ∃ bs rd, evs = bytesReader bs ++ rd ∧ (pendingAfter inBuf bs).isSome = true ∧
        (ReadByte rd).1 = ReadResult.fail e := by
  induction evs with
  | nil =>
    intro inBuf e h
    simp only [ReadKey.loop, Option.some.injEq] at h
    exact ⟨[], [], rfl, rfl, by rw [← h]; rfl⟩
  | cons ev rest ih =>
    intro inBuf e h
    cases ev with
    | fail e1 =>
      simp only [ReadKey.loop, Option.some.injEq] at h
      exact ⟨[], ReadResult.fail e1 :: rest, rfl, rfl, by rw [← h]; rfl⟩
    | byte b =>
      by_cases hk : (ReadKey.body inBuf b).1 = utf8.RuneError
      · simp only [ReadKey.loop, hk, if_true] at h
        obtain ⟨bs, rd, h1, h2, h3⟩ := ih _ e h
        refine ⟨b :: bs, rd, by rw [h1]; rfl, ?_, h3⟩
        simp only [pendingAfter, hk, if_true]
        exact h2
      · simp [ReadKey.loop, hk] at h

theorem body_length (buf : List Nat) (b : Nat) (h : buf.length ≤ 6) :
    (ReadKey.body buf b).2.length ≤ 6 := by
  have h1 := bytesToKey_length_le (buf ++ [b]) false
  simp only [List.length_append, List.length_singleton] at h1
  simp only [ReadKey.body]
  split_ifs with hgt
  · rw [List.length_drop]; omega
  · omega

theorem loop_length (evs : List ReadResult) : ∀ inBuf : List Nat, inBuf.length ≤ 6 →
    (ReadKey.loop inBuf evs).2.inBuf.length ≤ 6 := by
  induction evs with
  | nil => intro inBuf h; exact h
  | cons ev rest ih =>
    intro inBuf h
    cases ev with
    | fail e => exact h
    | byte b =>
      have hb := body_length inBuf b h
      by_cases hk : (ReadKey.body inBuf b).1 = utf8.RuneError
      · simp only [ReadKey.loop, hk, if_true]
        exact ih _ hb
      · simp only [ReadKey.loop, hk, if_false]
        exact hb

theorem afterCalls_length (n : Nat) : ∀ t : TermKey, t.inBuf.length ≤ 6 →
    (afterCalls n t).inBuf.length ≤ 6 := by
  induction n with
  | zero => intro t h; exact h
  | succ n ih =>
    intro t h
    exact ih _ (loop_length t.reader t.inBuf h)

theorem inBufAfter_length (bs : List Nat) : ∀ inBuf : List Nat, inBuf.length ≤ 6 →
    (inBufAfter inBuf bs).length ≤ 6 := by
  induction bs with
  | nil => intro inBuf h; exact h
  | cons b bs ih =>
    intro inBuf h
    exact ih _ (body_length inBuf b h)

theorem keysFrom_error (bs : List Nat) : ∀ inBuf : List Nat,
    (keysFrom inBuf (bytesReader bs)).2 = ReadError.EOF := by
  induction bs with
  | nil => intro inBuf; rfl
  | cons b bs ih =>
    intro inBuf
    by_cases hk : (ReadKey.body inBuf b).1 = utf8.RuneError
    · simp only [bytesReader_cons, keysFrom, hk, if_true]
      exact ih _
    · simp only [bytesReader_cons, keysFrom, hk, if_false]
      exact ih _

/-- The loop body on bytes without a terminator resolves no `KeyUnknown` and keeps the buffer
free of terminators. -/
theorem body_no_terminator (buf : List Nat) (b : Nat)
    (hbuf : ∀ c ∈ buf, isTerminator c = false) (hb : isTerminator b = false) :
    (ReadKey.body buf b).1 ≠ KeyUnknown ∧ ∀ c ∈ (ReadKey.body buf b).2, isTerminator c = false := by
  have hall : ∀ c ∈ buf ++ [b], isTerminator c = false := by
    intro c hc
    rcases List.mem_append.1 hc with hc | hc
    · exact hbuf c hc
    · rw [List.mem_singleton] at hc; rw [hc]; exact hb
  constructor
  · intro hk
    obtain ⟨tl, htl, c, hc, hterm⟩ := bytesToKey_unknown (buf ++ [b]) false hk
    have := hall c (by rw [htl]; exact List.mem_cons_of_mem _ hc)
    rw [this] at hterm
    exact absurd hterm (by simp)
  · intro c hc
    simp only [ReadKey.body] at hc
    split_ifs at hc
    · exact hall c (bytesToKey_mem _ _ c (List.mem_of_mem_drop hc))
    · exact hall c (bytesToKey_mem _ _ c hc)

theorem keysFrom_no_unknown (bs : List Nat) : ∀ inBuf : List Nat,
    (∀ c ∈ inBuf, isTerminator c = false) → (∀ c ∈ bs, isTerminator c = false) →
    ∀ kb ∈ (keysFrom inBuf (bytesReader bs)).1, kb.1 ≠ KeyUnknown := by
  induction bs with
  | nil => intro inBuf _ _ kb hkb; simp [bytesReader, keysFrom] at hkb
  | cons b bs ih =>
    intro inBuf hbuf hbs kb hkb
    obtain ⟨h1, h2⟩ := body_no_terminator inBuf b hbuf (hbs b (List.mem_cons_self _ _))
    have ih1 := ih (ReadKey.body inBuf b).2 h2 (fun c hc => hbs c (List.mem_cons_of_mem _ hc))
    by_cases hk : (ReadKey.body inBuf b).1 = utf8.RuneError
    · simp only [bytesReader_cons, keysFrom, hk, if_true] at hkb
      exact ih1 kb hkb
    · simp only [bytesReader_cons, keysFrom, hk, if_false, List.mem_cons] at hkb
      rcases hkb with rfl | hkb
      · exact h1
      · exact ih1 kb hkb

/-- The first-byte facts of a lead byte of a multi-byte encoding. -/
theorem utf8.lead_facts (l : Nat) (h1 : 0xC2 ≤ l) (h2 : l ≤ 0xF4) :
    utf8.first l < utf8.as ∧ 2 ≤ utf8.first l &&& 7 ∧
      0x80 ≤ (utf8.acceptRanges (utf8.first l >>> 4)).1 ∧
      (utf8.acceptRanges (utf8.first l >>> 4)).2 ≤ 0xBF := by
  rcases utf8.first_cases l with ⟨h, _⟩ | ⟨h, _⟩ | ⟨_, _, hf⟩ | ⟨_, hf⟩ | ⟨_, _, _, hf⟩ |
    ⟨_, hf⟩ | ⟨_, hf⟩ | ⟨_, _, hf⟩ | ⟨_, hf⟩
  · omega
  · omega
  all_goals (rw [hf]; exact ⟨by decide, by decide, by decide, by decide⟩)

/-- A byte that cannot begin an encoding is consumed by the loop body without a key. -/
theorem body_invalid (x : Nat) (hx : 0x80 ≤ x) (hf : utf8.first x = utf8.xx) :
    ReadKey.body [] x = (utf8.RuneError, []) := by
  have hfull : utf8.FullRune [x] = true := utf8.FullRune_of_size x [] (by rw [hf]; decide)
  simp only [ReadKey.body, List.nil_append]
  rw [bytesToKey_high x [] false hx, hfull, utf8.DecodeRune_xx x [] hf]
  simp

/-- A lead byte followed by a byte that is not a continuation byte: the matcher drops the lead
byte and reports the sentinel. -/
theorem bytesToKey_lead_bad (l c : Nat) (tl : List Nat) (flag : Bool) (h1 : 0xC2 ≤ l)
    (h2 : l ≤ 0xF4) (hc : c < 0x80 ∨ 0xBF < c) :
    bytesToKey (l :: c :: tl) flag = (utf8.RuneError, c :: tl) := by
  obtain ⟨hx, hsz, hlo, hhi⟩ := utf8.lead_facts l h1 h2
  have hacc : c < (utf8.acceptRanges (utf8.first l >>> 4)).1
      ∨ (utf8.acceptRanges (utf8.first l >>> 4)).2 < c := by omega
  have hfull : utf8.FullRune (l :: c :: tl) = true := by
    simp only [utf8.FullRune, List.length_cons, List.getD_cons_zero, List.getD_cons_succ]
    simp [hacc]
  have hdec : utf8.DecodeRune (l :: c :: tl) = (utf8.RuneError, 1) := by
    rw [utf8.DecodeRune_lead l (c :: tl) hx]
    simp only [List.getD_cons_zero]
    split_ifs
    · rfl
    · rfl
  rw [bytesToKey_high l _ flag (by omega), hfull, hdec]
  simp

theorem escape_beginnings_check :
    ∀ s ∈ escapeSequences, ∀ n, n < s.length → checkIncomplete (s.take n) = true := by
  decide

theorem escape_beginnings_both :
    ∀ s ∈ escapeSequences, ∀ n, n < s.length → 0 < n →
      bytesToKey (s.take n) false = (utf8.RuneError, s.take n) ∧
      bytesToKey (s.take n) true = (utf8.RuneError, s.take n) := by
  decide

/-- Every strict beginning of the encoding of a scalar is an incomplete sequence. -/
theorem incompleteKey_scalar_take (r : Nat) (hr : IsScalar r) (n : Nat)
    (hn : n < (utf8.EncodeRune r).length) : IncompleteKey ((utf8.EncodeRune r).take n) := by
  by_cases hfffd : r = 0xFFFD
  · subst hfffd
    have hlen : (utf8.EncodeRune 0xFFFD).length = 3 := by decide
    rw [hlen] at hn
    apply incompleteKey_of_check
    obtain rfl | rfl | rfl : n = 0 ∨ n = 1 ∨ n = 2 := by omega
    · decide
    · decide
    · decide
  by_cases hlow : r < 0x80
  · have e : utf8.EncodeRune r = [r] := by
      simp only [utf8.EncodeRune, utf8.rune1Max]; rw [if_pos (by omega)]
    rw [e] at hn ⊢
    simp only [List.length_singleton] at hn
    obtain rfl : n = 0 := by omega
    exact incompleteKey_nil
  · have hplain : IsPlainScalar r := by
      refine ⟨hr, ?_, ?_, hfffd⟩
      · simp only [isShortcut, decide_eq_false_iff_not]; omega
      · simp only [KeyEscape]; omega
    exact incompleteKey_take _ r (completeKey_scalar r hplain) n hn

/-! ## Further facts about the matcher -/

namespace utf8

/-- The three outcomes of `DecodeRune` on a non-empty input: the error rune, an ASCII byte
returned as itself with width 1, or a rune of at least `0x80` whose width is the size recorded
for the lead byte in the table `first`. -/
theorem DecodeRune_value (b0 : Nat) (tl : List Nat) :
    (DecodeRune (b0 :: tl)).1 = RuneError ∨
    (b0 < 0x80 ∧ DecodeRune (b0 :: tl) = (b0, 1)) ∨
    (0x80 ≤ b0 ∧ 0x80 ≤ (DecodeRune (b0 :: tl)).1 ∧
      (DecodeRune (b0 :: tl)).2 = first b0 &&& 7 ∧ 2 ≤ first b0 &&& 7) := by
  rcases first_cases b0 with ⟨h, _⟩ | ⟨_, hf⟩ | ⟨h1, h2, hf⟩ | ⟨h, hf⟩ | ⟨h1, h2, h3, hf⟩ | ⟨h, hf⟩ |
    ⟨h, hf⟩ | ⟨h1, h2, hf⟩ | ⟨h, hf⟩
  · exact Or.inr (Or.inl ⟨h, DecodeRune_ascii b0 tl h⟩)
  · rw [DecodeRune_xx b0 tl hf]
    left; rfl
  · rw [DecodeRune_lead b0 tl (by rw [hf]; decide), hf]
    simp only [show s1 &&& 7 = 2 from by decide,
      show acceptRanges (s1 >>> 4) = (0x80, 0xBF) from by decide]
    split_ifs
    all_goals first
      | (left; rfl)
      | (right; right
         refine ⟨?_, ?_, ?_, ?_⟩ <;> omega)
  · rw [DecodeRune_lead b0 tl (by rw [hf]; decide), hf]
    simp only [show s2 &&& 7 = 3 from by decide,
      show acceptRanges (s2 >>> 4) = (0xA0, 0xBF) from by decide]
    split_ifs
    all_goals first
      | (left; rfl)
      | (right; right
         refine ⟨?_, ?_, ?_, ?_⟩ <;> omega)
  · rw [DecodeRune_lead b0 tl (by rw [hf]; decide), hf]
    simp only [show s3 &&& 7 = 3 from by decide,
      show acceptRanges (s3 >>> 4) = (0x80, 0xBF) from by decide]
    split_ifs
    all_goals first
      | (left; rfl)
      | (right; right
         refine ⟨?_, ?_, ?_, ?_⟩ <;> omega)
  · rw [DecodeRune_lead b0 tl (by rw [hf]; decide), hf]
    simp only [show s4 &&& 7 = 3 from by decide,
      show acceptRanges (s4 >>> 4) = (0x80, 0x9F) from by decide]
    split_ifs
    all_goals first
      | (left; rfl)
      | (right; right
         refine ⟨?_, ?_, ?_, ?_⟩ <;> omega)
  · rw [DecodeRune_lead b0 tl (by rw [hf]; decide), hf]
    simp only [show s5 &&& 7 = 4 from by decide,
      show acceptRanges (s5 >>> 4) = (0x90, 0xBF) from by decide]
    split_ifs
    all_goals first
      | (left; rfl)
      | (right; right
         refine ⟨?_, ?_, ?_, ?_⟩ <;> omega)
  · rw [DecodeRune_lead b0 tl (by rw [hf]; decide), hf]
    simp only [show s6 &&& 7 = 4 from by decide,
      show acceptRanges (s6 >>> 4) = (0x80, 0xBF) from by decide]
    split_ifs
    all_goals first
      | (left; rfl)
      | (right; right
         refine ⟨?_, ?_, ?_, ?_⟩ <;> omega)
  · rw [DecodeRune_lead b0 tl (by rw [hf]; decide), hf]
    simp only [show s7 &&& 7 = 4 from by decide,
      show acceptRanges (s7 >>> 4) = (0x80, 0x8F) from by decide]
    split_ifs
    all_goals first
      | (left; rfl)
      | (right; right
         refine ⟨?_, ?_, ?_, ?_⟩ <;> omega)

end utf8

theorem recognizedFor_length : ∀ flag : Bool, ∀ sk ∈ recognizedFor flag, 0 < sk.1.length := by
  decide

/-- When `bytesToKey` resolves a key, its remainder is the buffer without a positive number of
its first bytes. -/
theorem bytesToKey_consumed (b : List Nat) (flag : Bool)
    (h : (bytesToKey b flag).1 ≠ utf8.RuneError) :
    ∃ n, 0 < n ∧ (bytesToKey b flag).2 = b.drop n := by
  rcases b with _ | ⟨x, tl⟩
  · exact absurd rfl h
  by_cases hx : x = 27
  · subst hx
    rcases bytesToKey_esc tl flag with ⟨sk, hsk, _, hr⟩ | hr
    · exact ⟨sk.1.length, recognizedFor_length flag sk hsk, by rw [hr]⟩
    · rw [hr, fallbackKey] at h ⊢
      split
      · rename_i rest hscan
        obtain ⟨init, z, h1, _⟩ := scanTerminator_some _ _ hscan
        refine ⟨init.length + 1, by omega, ?_⟩
        rw [h1]
        simp
      · rename_i hscan
        rw [hscan] at h
        exact absurd rfl h
  by_cases hs : flag = false ∧ isShortcut x = true
  · obtain ⟨rfl, hs⟩ := hs
    rw [bytesToKey_shortcut x tl hs]
    exact ⟨1, by omega, rfl⟩
  · have hc : flag = true ∨ isShortcut x = false := by
      cases flag <;> simp_all
    rw [bytesToKey_text x tl flag hc hx] at h ⊢
    split_ifs at h ⊢ with hfull
    · exact absurd rfl h
    · refine ⟨(utf8.DecodeRune (x :: tl)).2, ?_, rfl⟩
      rcases utf8.DecodeRune_value x tl with hv | ⟨_, hv⟩ | ⟨_, _, hv, hsz⟩
      · exact absurd hv h
      · rw [hv]; exact Nat.one_pos
      · omega

theorem recognizedFor_named : ∀ flag : Bool, ∀ sk ∈ recognizedFor flag, sk.2 ∈ namedKeys := by
  decide

theorem shortcutKey_cases (c : Nat) : shortcutKey c ∈ namedKeys ∨ shortcutKey c = KeyBackspace := by
  unfold shortcutKey
  split_ifs <;> decide

/-- On the UTF-8 path `bytesToKey` returns the sentinel, the first byte itself when it is ASCII,
or a scalar of at least `0x80`; never a surrogate. -/
theorem bytesToKey_text_key (x : Nat) (tl : List Nat) (flag : Bool)
    (hc : flag = true ∨ isShortcut x = false) (he : x ≠ 27) :
    (bytesToKey (x :: tl) flag).1 = utf8.RuneError ∨
      ((bytesToKey (x :: tl) flag).1 = x ∧ x < 0x80) ∨
      (0x80 ≤ (bytesToKey (x :: tl) flag).1 ∧ IsScalar (bytesToKey (x :: tl) flag).1) := by
  rw [bytesToKey_text x tl flag hc he]
  split_ifs
  · left; rfl
  · rcases utf8.DecodeRune_value x tl with hv | ⟨hlt, hv⟩ | ⟨_, hge, _, _⟩
    · left; exact hv
    · right; left
      exact ⟨by rw [hv], hlt⟩
    · right; right
      refine ⟨hge, ?_⟩
      rcases utf8.DecodeRune_range (x :: tl) with hr | hr
      · have h1 : (0x80 : Nat) ≤ (utf8.DecodeRune (x :: tl)).1 := hge
        have h2 : (utf8.DecodeRune (x :: tl)).1 = utf8.RuneError := hr
        unfold IsScalar
        rw [h2]
        decide
      · exact hr

/-- Every key that `bytesToKey` returns in the reserved range `0xD800..0xDFFF` is one of the
sixteen named keys. -/
theorem bytesToKey_reserved (b : List Nat) (flag : Bool)
    (h : 0xD800 ≤ (bytesToKey b flag).1 ∧ (bytesToKey b flag).1 ≤ 0xDFFF) :
    (bytesToKey b flag).1 ∈ namedKeys ∧
      ∃ x tl, b = x :: tl ∧ (x = 27 ∨ (flag = false ∧ isShortcut x = true)) := by
  rcases b with _ | ⟨x, tl⟩
  · have hk : (bytesToKey [] flag).1 = utf8.RuneError := rfl
    rw [hk] at h
    exact absurd h (by decide)
  by_cases hx : x = 27
  · subst hx
    refine ⟨?_, 27, tl, rfl, Or.inl rfl⟩
    rcases bytesToKey_esc tl flag with ⟨sk, hsk, _, hr⟩ | hr
    · rw [hr]
      exact recognizedFor_named flag sk hsk
    · rw [hr, fallbackKey] at h ⊢
      split at h
      · dsimp only
        decide
      · dsimp only at h
        exact absurd h (by decide)
  by_cases hs : flag = false ∧ isShortcut x = true
  · refine ⟨?_, x, tl, rfl, Or.inr hs⟩
    obtain ⟨rfl, hs⟩ := hs
    rw [bytesToKey_shortcut x tl hs] at h ⊢
    rcases shortcutKey_cases x with hn | hb
    · exact hn
    · exfalso
      have h1 : 0xD800 ≤ shortcutKey x := h.1
      rw [hb] at h1
      exact absurd h1 (by decide)
  · exfalso
    have hc : flag = true ∨ isShortcut x = false := by
      cases flag <;> simp_all
    rcases bytesToKey_text_key x tl flag hc hx with hk | ⟨hk, hlt⟩ | ⟨_, hsc⟩
    · rw [hk] at h
      exact absurd h (by decide)
    · rw [hk] at h
      omega
    · unfold IsScalar at hsc
      omega

/-- With the paste flag off, `bytesToKey` never returns `KeyEscape` or `KeyPasteEnd`. -/
theorem bytesToKey_off_key (b : List Nat) :
    (bytesToKey b false).1 ≠ KeyEscape ∧ (bytesToKey b false).1 ≠ KeyPasteEnd := by
  have hrec : ∀ sk ∈ recognized, sk.2 ≠ KeyEscape ∧ sk.2 ≠ KeyPasteEnd := by decide
  rcases b with _ | ⟨x, tl⟩
  · have hk : (bytesToKey [] false).1 = utf8.RuneError := rfl
    rw [hk]
    decide
  by_cases hx : x = 27
  · subst hx
    rcases bytesToKey_esc_off tl _ rfl with ⟨sk, hsk, _, hr⟩ | hr
    · rw [hr]
      exact hrec sk hsk
    · rw [hr, fallbackKey]
      split
      · dsimp only; decide
      · dsimp only; decide
  by_cases hs : isShortcut x = true
  · rw [bytesToKey_shortcut x tl hs]
    dsimp only
    unfold shortcutKey
    split_ifs <;> decide
  · have hc : false = true ∨ isShortcut x = false := by
      right; simpa using hs
    rcases bytesToKey_text_key x tl false hc hx with hk | ⟨hk, hlt⟩ | ⟨hge, hsc⟩
    · rw [hk]
      decide
    · rw [hk]
      simp only [KeyEscape, KeyPasteEnd]
      omega
    · unfold IsScalar at hsc
      simp only [KeyEscape, KeyPasteEnd]
      omega

/-- A key that `ReadKey` returns with no error is a key of the matcher, run with the paste flag
off, other than the sentinel. -/
theorem loop_key (evs : List ReadResult) : ∀ inBuf : List Nat,
    (ReadKey.loop inBuf evs).1.2 = none →
      (ReadKey.loop inBuf evs).1.1 ≠ utf8.RuneError ∧
      ∃ b, (ReadKey.loop inBuf evs).1.1 = (bytesToKey b false).1 := by
  induction evs with
  | nil => intro inBuf h; simp [ReadKey.loop] at h
  | cons ev rest ih =>
    intro inBuf h
    cases ev with
    | fail e => simp [ReadKey.loop] at h
    | byte b =>
      by_cases hk : (ReadKey.body inBuf b).1 = utf8.RuneError
      · simp only [ReadKey.loop, hk, if_true] at h ⊢
        exact ih _ h
      · simp only [ReadKey.loop, hk, if_false]
        exact ⟨hk, inBuf ++ [b], rfl⟩

namespace utf8

/-- `DecodeRune` on a non-empty input returns a width of at least one byte. -/
theorem DecodeRune_size_pos (b0 : Nat) (tl : List Nat) : 1 ≤ (DecodeRune (b0 :: tl)).2 := by
  rcases first_cases b0 with ⟨h, _⟩ | ⟨_, hf⟩ | ⟨h1, h2, hf⟩ | ⟨h, hf⟩ | ⟨h1, h2, h3, hf⟩ | ⟨h, hf⟩ |
    ⟨h, hf⟩ | ⟨h1, h2, hf⟩ | ⟨h, hf⟩
  · rw [DecodeRune_ascii b0 tl h]
  · rw [DecodeRune_xx b0 tl hf]
  · rw [DecodeRune_lead b0 tl (by rw [hf]; decide), hf]
    simp only [show s1 &&& 7 = 2 from by decide,
      show acceptRanges (s1 >>> 4) = (0x80, 0xBF) from by decide]
    split_ifs <;> exact Nat.le_of_ble_eq_true rfl
  · rw [DecodeRune_lead b0 tl (by rw [hf]; decide), hf]
    simp only [show s2 &&& 7 = 3 from by decide,
      show acceptRanges (s2 >>> 4) = (0xA0, 0xBF) from by decide]
    split_ifs <;> exact Nat.le_of_ble_eq_true rfl
  · rw [DecodeRune_lead b0 tl (by rw [hf]; decide), hf]
    simp only [show s3 &&& 7 = 3 from by decide,
      show acceptRanges (s3 >>> 4) = (0x80, 0xBF) from by decide]
    split_ifs <;> exact Nat.le_of_ble_eq_true rfl
  · rw [DecodeRune_lead b0 tl (by rw [hf]; decide), hf]
    simp only [show s4 &&& 7 = 3 from by decide,
      show acceptRanges (s4 >>> 4) = (0x80, 0x9F) from by decide]
    split_ifs <;> exact Nat.le_of_ble_eq_true rfl
  · rw [DecodeRune_lead b0 tl (by rw [hf]; decide), hf]
    simp only [show s5 &&& 7 = 4 from by decide,
      show acceptRanges (s5 >>> 4) = (0x90, 0xBF) from by decide]
    split_ifs <;> exact Nat.le_of_ble_eq_true rfl
  · rw [DecodeRune_lead b0 tl (by rw [hf]; decide), hf]
    simp only [show s6 &&& 7 = 4 from by decide,
      show acceptRanges (s6 >>> 4) = (0x80, 0xBF) from by decide]
    split_ifs <;> exact Nat.le_of_ble_eq_true rfl
  · rw [DecodeRune_lead b0 tl (by rw [hf]; decide), hf]
    simp only [show s7 &&& 7 = 4 from by decide,
      show acceptRanges (s7 >>> 4) = (0x80, 0x8F) from by decide]
    split_ifs <;> exact Nat.le_of_ble_eq_true rfl

end utf8

theorem scanTerminator_of_mem (p : List Nat) (c : Nat) (hc : c ∈ p)
    (ht : isTerminator c = true) : ∃ rest, scanTerminator p = some rest := by
  induction p with
  | nil => simp at hc
  | cons x p ih =>
    by_cases hx : isTerminator x = true
    · exact ⟨p, by simp [scanTerminator, hx]⟩
    · rcases List.mem_cons.1 hc with rfl | hc
      · exact absurd ht hx
      · obtain ⟨rest, hrest⟩ := ih hc
        exact ⟨rest, by simp only [scanTerminator, hx]; exact hrest⟩

theorem recognized_resolves : ∀ sk ∈ recognized,
    bytesToKey sk.1 false = (sk.2, []) ∧ sk.2 ≠ utf8.RuneError ∧ 0 < sk.1.length := by
  decide

/-- With the paste flag off, a buffer that starts with ESC and holds a terminator resolves to a
key other than the sentinel. -/
theorem bytesToKey_esc_resolves (tl : List Nat) (c : Nat) (hc : c ∈ tl)
    (ht : isTerminator c = true) : (bytesToKey (27 :: tl) false).1 ≠ utf8.RuneError := by
  rcases bytesToKey_esc_off tl _ rfl with ⟨sk, hsk, _, hr⟩ | hr
  · rw [hr]
    exact (recognized_resolves sk hsk).2.1
  · obtain ⟨rest, hrest⟩ := scanTerminator_of_mem (27 :: tl) c (List.mem_cons_of_mem _ hc) ht
    rw [hr, fallbackKey, hrest]
    dsimp only
    decide

/-- Earliest resolution, on the beginnings written as `take`: if the matcher is incomplete with
the buffer unchanged on every non-empty strict beginning of `b` and resolves `b`, it consumes
all of `b`. -/
theorem bytesToKey_earliest_take (b : List Nat)
    (hpre : ∀ n, 0 < n → n < b.length →
      bytesToKey (b.take n) false = (utf8.RuneError, b.take n))
    (hk : (bytesToKey b false).1 ≠ utf8.RuneError) : (bytesToKey b false).2 = [] := by
  rcases b with _ | ⟨x, tl⟩
  · rfl
  by_cases hx : x = 27
  · subst hx
    rcases bytesToKey_esc_off tl _ rfl with ⟨sk, hsk, htake, hr⟩ | hr
    · rw [hr]
      dsimp only
      obtain ⟨hres, hne, hpos⟩ := recognized_resolves sk hsk
      by_cases hL : sk.1.length < (27 :: tl).length
      · exfalso
        have h := hpre sk.1.length hpos hL
        rw [htake, hres] at h
        exact hne (congrArg Prod.fst h)
      · exact List.drop_eq_nil_of_le (by omega)
    · rw [hr, fallbackKey] at hk ⊢
      split
      · rename_i rest hscan
        dsimp only
        obtain ⟨init, z, h1, hz⟩ := scanTerminator_some _ _ hscan
        by_contra hrest
        rcases init with _ | ⟨y, init⟩
        · simp only [List.nil_append, List.cons.injEq] at h1
          rw [← h1.1] at hz
          exact absurd hz (by decide)
        · simp only [List.cons_append, List.cons.injEq] at h1
          obtain ⟨rfl, rfl⟩ := h1
          have hlen : (27 :: init).length + 1 < (27 :: (init ++ z :: rest)).length := by
            have : 0 < rest.length := List.length_pos.2 hrest
            simp only [List.length_cons, List.length_append]
            omega
          have h := hpre ((27 :: init).length + 1) (by omega) hlen
          have e : (27 :: (init ++ z :: rest)).take ((27 :: init).length + 1)
              = 27 :: (init ++ [z]) := by
            have := take_append_cons (27 :: init) z rest
            simpa using this
          rw [e] at h
          exact bytesToKey_esc_resolves (init ++ [z]) z (by simp) hz (congrArg Prod.fst h)
      · rename_i hscan
        rw [hscan] at hk
        exact absurd rfl hk
  by_cases hs : isShortcut x = true
  · rw [bytesToKey_shortcut x tl hs]
    dsimp only
    by_contra htl
    have hlen : 1 < (x :: tl).length := by
      have : 0 < tl.length := List.length_pos.2 htl
      simp only [List.length_cons]; omega
    have h := hpre 1 (by omega) hlen
    simp only [List.take_succ_cons, List.take_zero] at h
    rw [bytesToKey_shortcut x [] hs] at h
    exact absurd (congrArg Prod.snd h) (by simp)
  · have hc : false = true ∨ isShortcut x = false := by
      right; simpa using hs
    have htext := bytesToKey_text x tl false hc hx
    rw [htext] at hk ⊢
    split_ifs at hk ⊢ with hfull
    · exact absurd rfl hk
    · dsimp only at hk ⊢
      by_cases hL : (utf8.DecodeRune (x :: tl)).2 < (x :: tl).length
      · exfalso
        have hpos := utf8.DecodeRune_size_pos x tl
        have h := hpre _ (by omega) hL
        obtain ⟨m, hm⟩ : ∃ m, (utf8.DecodeRune (x :: tl)).2 = m + 1 :=
          ⟨(utf8.DecodeRune (x :: tl)).2 - 1, by omega⟩
        rw [hm, List.take_succ_cons] at h
        have hmlen : (tl.take m).length = m := by
          simp only [List.length_take, List.length_cons] at hL ⊢
          omega
        have hfullp : utf8.FullRune (x :: tl.take m) = true := by
          rcases utf8.DecodeRune_value x tl with hv | ⟨hlt, _⟩ | ⟨_, _, hsize, _⟩
          · exact absurd hv hk
          · exact utf8.FullRune_ascii x _ hlt
          · apply utf8.FullRune_of_size
            rw [hmlen, ← hsize, hm]
        rw [bytesToKey_text x (tl.take m) false hc hx, hfullp] at h
        simp only [Bool.true_eq_false, if_false] at h
        have hsnd := congrArg (fun r => r.2.length) h
        have hpos2 := utf8.DecodeRune_size_pos x (tl.take m)
        simp only [List.length_drop, List.length_cons] at hsnd
        omega
      · exact List.drop_eq_nil_of_le (by omega)

theorem shortcutTable_spec : ∀ ck ∈ shortcutTable,
    isShortcut ck.1 = true ∧ shortcutKey ck.1 = ck.2 ∧ ck.1 < 0x80 ∧ ck.1 ≠ 27 := by
  decide

/-- With the paste flag on, `bytesToKey` never returns `KeyPasteStart`. -/
theorem bytesToKey_on_key (b : List Nat) : (bytesToKey b true).1 ≠ KeyPasteStart := by
  intro hk
  have hrange : 0xD800 ≤ (bytesToKey b true).1 ∧ (bytesToKey b true).1 ≤ 0xDFFF := by
    rw [hk]; decide
  obtain ⟨_, x, tl, rfl, hx⟩ := bytesToKey_reserved b true hrange
  rcases hx with rfl | ⟨hf, _⟩
  · rcases bytesToKey_esc tl true with ⟨sk, hsk, _, hr⟩ | hr
    · rw [hr] at hk
      have : ∀ sk ∈ recognizedFor true, sk.2 ≠ KeyPasteStart := by decide
      exact this sk hsk hk
    · rw [hr, fallbackKey] at hk
      split at hk
      · dsimp only at hk
        exact absurd hk (by decide)
      · dsimp only at hk
        exact absurd hk (by decide)
  · exact absurd hf (by decide)

theorem mem_namedKeys_iff (r : Nat) : r ∈ namedKeys ↔ 0xD804 ≤ r ∧ r ≤ 0xD813 := by
  simp only [namedKeys, KeyUnknown, KeyUp, KeyDown, KeyLeft, KeyRight, KeyAltLeft, KeyAltRight,
    KeyHome, KeyEnd, KeyDeleteWord, KeyDeleteLine, KeyClearScreen, KeyPasteStart, KeyPasteEnd,
    KeyTabOut, KeyDel, List.mem_cons, List.mem_singleton, List.not_mem_nil, or_false]
  omega

theorem IsRemapped_named : ∀ kn ∈ keyMap, IsRemapped kn.1 = (kn.2, true) := by
  decide

theorem IsRemapped_other (r : Nat) (h : r ∉ namedKeys) : IsRemapped r = ("", false) := by
  rw [mem_namedKeys_iff] at h
  have e : keyMap.lookup r = none := by
    simp only [keyMap, KeyUnknown, KeyUp, KeyDown, KeyLeft, KeyRight, KeyAltLeft, KeyAltRight,
      KeyHome, KeyEnd, KeyDeleteWord, KeyDeleteLine, KeyClearScreen, KeyPasteStart, KeyPasteEnd,
      KeyTabOut, KeyDel, List.lookup]
    repeat (rw [show ∀ k : Nat, r ≠ k → (r == k) = false from fun k hk => by simpa using hk])
    all_goals omega
  simp only [IsRemapped, e]

/-- A decoder whose buffer holds the first byte of a complete key of at least two bytes reads
the key from the rest of its bytes and is left with an empty buffer. -/
theorem keysFrom_resume (s : List Nat) (k : Nat) (hs : CompleteKey s k) (x : Nat)
    (s1 : List Nat) (hs1 : s = x :: s1) (hne : s1 ≠ []) (tail : List ReadResult) :
    keysFrom [x] (bytesReader s1 ++ tail)
      = ((k, []) :: (keysFrom [] tail).1, (keysFrom [] tail).2) := by
  have hk := hs.2.2.1
  obtain ⟨q, b, rfl⟩ : ∃ q b, s1 = q ++ [b] := by
    rcases List.eq_nil_or_concat s1 with h | ⟨q, b, h⟩
    · exact absurd h hne
    · exact ⟨q, b, by simpa using h⟩
  obtain ⟨h1, h2⟩ := pending_complete s k hs q [x] b (by rw [hs1]; simp)
  simp only [List.singleton_append] at h1 h2
  rw [bytesReader_append, List.append_assoc, keysFrom_pendingAfter q _ [x] _ h1]
  simp [bytesReader, keysFrom, h2, hk]

/-- The first seven bytes of a run that starts with ESC and holds no terminator resolve no key,
and the cap leaves only the seventh byte pending. -/
theorem pendingAfter_garbage (xs : List Nat) (hlen : 6 ≤ xs.length)
    (hxs : ∀ c ∈ xs, isTerminator c = false) :
    pendingAfter [] (27 :: xs.take 6) = some [xs.getD 5 0] := by
  rcases xs with _ | ⟨a, _ | ⟨b, _ | ⟨c, _ | ⟨d, _ | ⟨e, _ | ⟨f, rest⟩⟩⟩⟩⟩⟩
  any_goals (simp at hlen)
  have hmem : ∀ y ∈ [a, b, c, d, e, f], isTerminator y = false := by
    intro y hy
    exact hxs y (by simp only [List.mem_cons] at hy ⊢; tauto)
  have hinc : IncompleteKey [27, a, b, c, d, e] := by
    refine ⟨by simp, ?_⟩
    intro n hn _
    obtain ⟨m, rfl⟩ : ∃ m, n = m + 1 := ⟨n - 1, by omega⟩
    rw [List.take_succ_cons]
    apply bytesToKey_esc_incomplete
    intro y hy
    exact hmem y (by
      have := List.mem_of_mem_take hy
      simp only [List.mem_cons] at this ⊢; tauto)
  have h6 := pendingAfter_incomplete _ hinc [27, a, b, c, d, e] [] rfl
  have h7 : bytesToKey [27, a, b, c, d, e, f] false
      = (utf8.RuneError, [27, a, b, c, d, e, f]) :=
    bytesToKey_esc_incomplete [a, b, c, d, e, f] hmem
  have := pendingAfter_append [27, a, b, c, d, e] [f] [] _ h6
  simp only [List.take_succ_cons, List.take_zero, List.getD_cons_succ, List.getD_cons_zero]
  rw [show [27, a, b, c, d, e, f] = [27, a, b, c, d, e] ++ [f] from rfl, this]
  simp [pendingAfter, ReadKey.body, h7]

/-- After the cap, decoding goes on from the pending seventh byte. -/
theorem keysFrom_garbage (xs : List Nat) (hlen : 6 ≤ xs.length)
    (hxs : ∀ c ∈ xs, isTerminator c = false) :
    keysFrom [] (bytesReader (27 :: xs ++ [13]))
      = keysFrom [xs.getD 5 0] (bytesReader (xs.drop 6 ++ [13])) := by
  have h := keysFrom_pendingAfter (27 :: xs.take 6) (bytesReader (xs.drop 6 ++ [13])) [] _
    (pendingAfter_garbage xs hlen hxs)
  rw [← bytesReader_append] at h
  have e : 27 :: xs.take 6 ++ (xs.drop 6 ++ [13]) = 27 :: xs ++ [13] := by
    rw [List.cons_append, ← List.append_assoc, List.take_append_drop, List.cons_append]
  rw [e] at h
  exact h

/-! ## The claims -/

/-- C1: for every finite list of well-formed key tokens (the encoding of a plain scalar, a
control-shortcut byte, a recognized escape sequence, an unrecognized ESC-led sequence of 2 to 7
bytes ended by its only terminator), successive `ReadKey` calls on a fresh decoder fed the
concatenated bytes one at a time return exactly one key per token, in order, each call leaving
the pending buffer empty, and then report end of input. -/
theorem keysOfInput_tokens (ts : List Token) (h : ∀ t ∈ ts, t.WellFormed) :
    keysOfInput (ts.map Token.bytes).flatten
      = (ts.map (fun t => (t.key, [])), some ReadError.EOF) := by
  have := keys_of_tokens [] ts [] (by simp) h (by simp)
  simpa using this

theorem keysOfInput_tokens_witness :
    (∀ t ∈ [Token.scalar 97, Token.shortcut 6, Token.sequence [27, 91, 65] KeyUp,
        Token.unknown [27, 91, 53, 126], Token.scalar 926], t.WellFormed) ∧
    keysOfInput ([Token.scalar 97, Token.shortcut 6, Token.sequence [27, 91, 65] KeyUp,
        Token.unknown [27, 91, 53, 126], Token.scalar 926].map Token.bytes).flatten
      = ([Token.scalar 97, Token.shortcut 6, Token.sequence [27, 91, 65] KeyUp,
          Token.unknown [27, 91, 53, 126], Token.scalar 926].map (fun t => (t.key, [])),
        some ReadError.EOF) := by
  have hwf : ∀ t ∈ [Token.scalar 97, Token.shortcut 6, Token.sequence [27, 91, 65] KeyUp,
      Token.unknown [27, 91, 53, 126], Token.scalar 926], t.WellFormed := by
    intro t ht
    simp only [List.mem_cons, List.mem_singleton, List.not_mem_nil, or_false] at ht
    rcases ht with rfl | rfl | rfl | rfl | rfl
    · show IsPlainScalar 97; decide
    · show isShortcut 6 = true; decide
    · show ([27, 91, 65], KeyUp) ∈ recognized; decide
    · exact ⟨[91, 53], 126, rfl, by decide, by decide, by decide, by decide⟩
    · show IsPlainScalar 926; decide
  exact ⟨hwf, keysOfInput_tokens _ hwf⟩

/-- C2 (counterexample): the scalars U+0001, ESC and U+FFFD are not returned as themselves. The
encoding of U+0001 is read as `KeyHome`; on the encoding of ESC and on the encoding of U+FFFD the
call returns no key and the error `EOF`. -/
theorem readKey_scalar_counterexample :
    (IsScalar 1 ∧ (ReadKey (NewTermKey (bytesReader (utf8.EncodeRune 1)))).1 = (KeyHome, none)
      ∧ KeyHome ≠ 1) ∧
    (IsScalar 27 ∧ (ReadKey (NewTermKey (bytesReader (utf8.EncodeRune 27)))).1
      = (KeyUnknown, some ReadError.EOF)) ∧
    (IsScalar 0xFFFD ∧ (ReadKey (NewTermKey (bytesReader (utf8.EncodeRune 0xFFFD)))).1
      = (KeyUnknown, some ReadError.EOF)) := by
  decide

/-- C2 (amended): for every Unicode scalar other than the ten control-shortcut bytes, ESC and
U+FFFD, when its UTF-8 encoding is fed one byte at a time to a fresh decoder, `ReadKey` returns
exactly that scalar with no error, having read exactly the bytes of the encoding and leaving the
buffer empty; and it does so only after the last byte: on any strict beginning of the encoding
followed by the end of input it returns no key. -/
theorem readKey_scalar (r : Nat) (h : IsPlainScalar r) :
    (∀ tail : List ReadResult,
      ReadKey (NewTermKey (bytesReader (utf8.EncodeRune r) ++ tail))
        = ((r, none), { inBuf := [], reader := tail })) ∧
    (∀ n, n < (utf8.EncodeRune r).length →
      ReadKey (NewTermKey (bytesReader ((utf8.EncodeRune r).take n)))
        = ((KeyUnknown, some ReadError.EOF),
            { inBuf := (utf8.EncodeRune r).take n, reader := [] })) := by
  have hc := completeKey_scalar r h
  refine ⟨fun tail => loop_complete _ r hc tail, fun n hn => ?_⟩
  exact loop_incomplete _ (incompleteKey_take _ r hc n hn)

theorem readKey_scalar_witness :
    IsPlainScalar 0x20AC ∧
    ((∀ tail : List ReadResult,
      ReadKey (NewTermKey (bytesReader (utf8.EncodeRune 0x20AC) ++ tail))
        = ((0x20AC, none), { inBuf := [], reader := tail })) ∧
    (∀ n, n < (utf8.EncodeRune 0x20AC).length →
      ReadKey (NewTermKey (bytesReader ((utf8.EncodeRune 0x20AC).take n)))
        = ((KeyUnknown, some ReadError.EOF),
            { inBuf := (utf8.EncodeRune 0x20AC).take n, reader := [] }))) :=
  ⟨by decide, readKey_scalar 0x20AC (by decide)⟩

theorem recognized_key_ne_48 : ∀ sk ∈ recognized, sk.2 ≠ 48 := by decide

/-- C3 (counterexample): bytes are lost on two inputs. On `ESC 0 0 0 0 0 0 CR` the cap drops the
first six bytes mid-stream and the only key read is `'0'`, which the matcher resolves from no
beginning of the input. On `0xC3 CR` no key is read although the matcher consumes `0xC3`, and the
complete key Enter is left in the buffer at the end of input. -/
theorem noLoss_counterexample :
    ¬ NoLoss [27, 48, 48, 48, 48, 48, 48, 13] ∧ ¬ NoLoss [0xC3, 13] := by
  constructor
  · rintro ⟨segs, t, h1, h2, h3, _⟩
    have hk : (keysOfInput [27, 48, 48, 48, 48, 48, 48, 13]).1.map Prod.fst = [48] := by decide
    rw [hk] at h2
    rcases segs with _ | ⟨s1, segs⟩
    · simp at h2
    · simp only [List.map_cons, List.cons.injEq] at h2
      have hkey := h2.1
      rcases s1 with _ | ⟨x, s1⟩
      · revert hkey; decide
      · simp only [List.flatten_cons, List.cons_append, List.cons.injEq] at h1
        obtain ⟨rfl, _⟩ := h1
        rcases bytesToKey_esc_off s1 _ rfl with ⟨sk, hsk, _, hr⟩ | hr
        · rw [hr] at hkey
          exact recognized_key_ne_48 sk hsk hkey.symm
        · rw [hr] at hkey
          unfold fallbackKey at hkey
          split at hkey
          · have hk48 : (48 : Nat) = KeyUnknown := hkey
            exact absurd hk48 (by decide)
          · have hk48 : (48 : Nat) = utf8.RuneError := hkey
            exact absurd hk48 (by decide)
  · rintro ⟨segs, t, h1, h2, _, h4⟩
    have hk : (keysOfInput [0xC3, 13]).1.map Prod.fst = [] := by decide
    rw [hk] at h2
    have hs : segs = [] := by
      rcases segs with _ | ⟨s1, segs⟩
      · rfl
      · simp at h2
    subst hs
    simp only [List.flatten_nil, List.nil_append] at h1
    subst h1
    revert h4
    decide

/-- C3 (amended): for every input `s1 ++ ... ++ sn ++ t` in which each `si` is one complete key
for a decoder with an empty buffer (at most seven bytes, resolved by the matcher to a key other
than the sentinel with nothing left, and incomplete with the buffer unchanged on every non-empty
strict beginning) and `t` is an incomplete trailing sequence of at most six bytes, the keys read
are, in order, the keys of the segments, every call leaves the pending buffer empty, `t` is
dropped at the end of input, and the input has the no-loss property. -/
theorem keysOfInput_segments (segs : List (List Nat × Nat)) (t : List Nat)
    (hsegs : ∀ sk ∈ segs, CompleteKey sk.1 sk.2) (ht : IncompleteKey t) :
    keysOfInput ((segs.map Prod.fst).flatten ++ t)
        = (segs.map (fun sk => (sk.2, [])), some ReadError.EOF) ∧
      NoLoss ((segs.map Prod.fst).flatten ++ t) := by
  have hkeys := keys_of_segments segs t hsegs ht
  refine ⟨hkeys, segs.map Prod.fst, t, rfl, ?_, ?_, ?_⟩
  · rw [hkeys]
    simp only [List.map_map]
    apply List.map_congr_left
    intro sk hsk
    simp [(hsegs sk hsk).2.2.2.1]
  · intro s hs
    obtain ⟨sk, hsk, rfl⟩ := List.mem_map.1 hs
    obtain ⟨_, _, hne, hfull, _⟩ := hsegs sk hsk
    rw [hfull]
    exact ⟨hne, rfl⟩
  · rcases t with _ | ⟨x, t⟩
    · rfl
    · have := ht.2 (x :: t).length (by simp) (le_refl _)
      rwa [List.take_length] at this

theorem keysOfInput_segments_witness :
    (∀ sk ∈ [([97], 97), ([27, 91, 51, 126], KeyDel)], CompleteKey sk.1 sk.2) ∧
    IncompleteKey [27, 91] ∧
    (keysOfInput [97, 27, 91, 51, 126, 27, 91]
        = ([(97, []), (KeyDel, [])], some ReadError.EOF) ∧
      NoLoss [97, 27, 91, 51, 126, 27, 91]) := by
  have h1 : ∀ sk ∈ [([97], 97), ([27, 91, 51, 126], KeyDel)], CompleteKey sk.1 sk.2 := by
    intro sk hsk
    simp only [List.mem_cons, List.mem_singleton, List.not_mem_nil, or_false] at hsk
    rcases hsk with rfl | rfl
    · exact completeKey_of_check _ _ (by decide)
    · exact completeKey_of_check _ _ (by decide)
  have h2 : IncompleteKey [27, 91] := by
    refine ⟨by decide, ?_⟩
    intro n hn hle
    simp only [List.length_cons, List.length_nil] at hle
    obtain rfl | rfl : n = 1 ∨ n = 2 := by omega
    · decide
    · decide
  exact ⟨h1, h2, keysOfInput_segments _ _ h1 h2⟩

/-- C4: the code at the failing input `ESC[200~ 0x01 ESC[201~`. After `KeyPasteStart` the
enclosed byte 1 is read as `KeyHome`, not as the code point 1, and the end marker is read as
`KeyUnknown`; the matcher's own paste path, which `ReadKey` never takes, returns the byte 1 as
itself and the end marker as `KeyPasteEnd`. -/
theorem keysOfInput_paste_failing :
    keysOfInput (pasteStart ++ [1] ++ pasteEnd)
        = ([(KeyPasteStart, []), (KeyHome, []), (KeyUnknown, [])], some ReadError.EOF) ∧
      KeyHome ≠ 1 ∧
      bytesToKey [1] true = (1, []) ∧
      bytesToKey pasteEnd true = (KeyPasteEnd, []) := by
  decide

/-- C5 (counterexample): on `ESC ESC 0x99 ESC [ 3 ~ CR A` the keys read are one `KeyUnknown`,
Enter and `'A'`; there is no second `KeyUnknown` and no `KeyDel`. -/
theorem keysOfInput_confuse_counterexample :
    (keysOfInput [27, 27, 0x99, 27, 91, 51, 126, 13, 65]).1.map Prod.fst
        = [KeyUnknown, KeyEnter, 65] ∧
      (keysOfInput [27, 27, 0x99, 27, 91, 51, 126, 13, 65]).1.map Prod.fst
        ≠ [KeyUnknown, KeyUnknown, KeyDel, KeyEnter, 65] := by
  decide

/-- C5 (amended): for every input `ESC ESC g ESC [ 3 ~ CR A` where `g` is not an ASCII letter
and not `~`, successive `ReadKey` calls on a fresh decoder return exactly one `KeyUnknown`, for
the whole run of seven bytes up to `~`, then Enter and `'A'`, each call leaving the buffer empty,
and then report end of input. -/
theorem keysOfInput_confuse (g : Nat) (hg : isTerminator g = false) :
    keysOfInput [27, 27, g, 27, 91, 51, 126, 13, 65]
      = ([(KeyUnknown, []), (KeyEnter, []), (65, [])], some ReadError.EOF) := by
  have hwf : ∀ t ∈ [Token.unknown [27, 27, g, 27, 91, 51, 126], Token.scalar 13,
      Token.scalar 65], t.WellFormed := by
    intro t ht
    simp only [List.mem_cons, List.mem_singleton, List.not_mem_nil, or_false] at ht
    rcases ht with rfl | rfl | rfl
    · refine ⟨[27, g, 27, 91, 51], 126, rfl, by simp, ?_, by decide, ?_⟩
      · intro c hc
        simp only [List.mem_cons, List.mem_singleton, List.not_mem_nil, or_false] at hc
        rcases hc with rfl | rfl | rfl | rfl | rfl
        · decide
        · exact hg
        · decide
        · decide
        · decide
      · simp [recognized]
    · show IsPlainScalar 13; decide
    · show IsPlainScalar 65; decide
  have e13 : utf8.EncodeRune 13 = [13] := by decide
  have e65 : utf8.EncodeRune 65 = [65] := by decide
  have := keys_of_tokens [] _ [] (by simp) hwf (by simp)
  simpa [Token.bytes, Token.key, e13, e65, KeyEnter] using this

theorem keysOfInput_confuse_witness :
    isTerminator 0x99 = false ∧
    keysOfInput [27, 27, 0x99, 27, 91, 51, 126, 13, 65]
      = ([(KeyUnknown, []), (KeyEnter, []), (65, [])], some ReadError.EOF) :=
  ⟨by decide, keysOfInput_confuse 0x99 (by decide)⟩

/-- C6 (counterexample): on `ESC 0 0 0 0 0 0 CR` the only key read is `'0'`, with Enter left
in the pending buffer at the end of input: no `KeyUnknown` and no Enter is returned. -/
theorem keysOfInput_garbage_counterexample :
    keysOfInput [27, 48, 48, 48, 48, 48, 48, 13] = ([(48, [13])], some ReadError.EOF) := by
  decide

/-- C6 (amended): for every run of more than six bytes that starts with ESC and holds no ASCII
letter and no `~`, followed by Enter: the first seven bytes resolve no key and the cap then
leaves only the seventh byte pending (the six bytes before it are dropped without a key);
decoding resumes from that state, so the keys read are those of successive `ReadKey` calls on a
decoder whose buffer holds the seventh byte and whose input is the rest of the run and Enter;
no call returns `KeyUnknown`; and when the bytes of the run from the seventh on are the
encodings of well-formed tokens the first of which has at least two bytes, the keys read are
exactly the keys of these tokens and then Enter, each call leaving the buffer empty, followed
by end of input. -/
theorem keysOfInput_garbage (xs : List Nat) (hlen : 6 ≤ xs.length)
    (hxs : ∀ c ∈ xs, isTerminator c = false) :
    pendingAfter [] (27 :: xs.take 6) = some [xs.getD 5 0] ∧
    keysOfInput (27 :: xs ++ [13])
      = keysRead (xs.length + 2)
          { inBuf := [xs.getD 5 0], reader := bytesReader (xs.drop 6 ++ [13]) } ∧
    (∀ kb ∈ (keysOfInput (27 :: xs ++ [13])).1, kb.1 ≠ KeyUnknown) ∧
    (∀ (t0 : Token) (ts : List Token), (∀ t ∈ t0 :: ts, t.WellFormed) →
      2 ≤ t0.bytes.length → xs.drop 5 = ((t0 :: ts).map Token.bytes).flatten →
      keysOfInput (27 :: xs ++ [13])
        = ((t0 :: ts).map (fun t => (t.key, [])) ++ [(KeyEnter, [])], some ReadError.EOF)) := by
  have hres := keysFrom_garbage xs hlen hxs
  refine ⟨pendingAfter_garbage xs hlen hxs, ?_, ?_, ?_⟩
  · rw [keysOfInput_eq, hres, keysRead_eq_keysFrom]
    simp only [bytesReader_length, List.length_append, List.length_drop, List.length_singleton]
    omega
  · rw [keysOfInput_eq]
    apply keysFrom_no_unknown _ [] (by simp)
    intro c hc
    simp only [List.cons_append, List.mem_cons, List.mem_append, List.mem_singleton,
      List.not_mem_nil, or_false] at hc
    rcases hc with rfl | hc | rfl
    · decide
    · exact hxs c hc
    · decide
  · intro t0 ts hwf h2 hdrop
    have hc0 := completeKey_token t0 (hwf t0 (List.mem_cons_self _ _))
    have hd5 : xs.drop 5 = xs.getD 5 0 :: xs.drop 6 := by
      rcases xs with _ | ⟨a, _ | ⟨b, _ | ⟨c, _ | ⟨d, _ | ⟨e, _ | ⟨f, rest⟩⟩⟩⟩⟩⟩
      any_goals (simp at hlen)
      simp
    obtain ⟨y, s1, hy⟩ : ∃ y s1, t0.bytes = y :: s1 := by
      rcases hb : t0.bytes with _ | ⟨y, s1⟩
      · rw [hb] at h2; simp at h2
      · exact ⟨y, s1, rfl⟩
    have hs1 : s1 ≠ [] := by
      rintro rfl
      rw [hy] at h2; simp at h2
    rw [hd5, List.map_cons, List.flatten_cons, hy, List.cons_append, List.cons.injEq] at hdrop
    obtain ⟨hx, hrest⟩ := hdrop
    have hsegs : ∀ sk ∈ ts.map (fun t => (t.bytes, t.key)) ++ [([13], KeyEnter)],
        CompleteKey sk.1 sk.2 := by
      intro sk hsk
      simp only [List.mem_append, List.mem_map, List.mem_singleton] at hsk
      rcases hsk with ⟨t, ht, rfl⟩ | rfl
      · exact completeKey_token t (hwf t (List.mem_cons_of_mem _ ht))
      · exact completeKey_of_check _ _ (by decide)
    have htail := keysFrom_segments _ [] hsegs incompleteKey_nil
    have hR : keysFrom [] (bytesReader ((ts.map Token.bytes).flatten ++ [13]))
        = (ts.map (fun t => (t.key, [])) ++ [(KeyEnter, [])], ReadError.EOF) := by
      simpa [List.map_append, List.flatten_append, Function.comp_def] using htail
    rw [keysOfInput_eq, hres, hrest, hx, List.append_assoc, bytesReader_append,
      keysFrom_resume t0.bytes t0.key hc0 y s1 hy hs1, hR]
    simp

theorem keysOfInput_garbage_witness :
    6 ≤ [48, 48, 48, 48, 48, 0xC2, 0xA3].length ∧
    (∀ c ∈ [48, 48, 48, 48, 48, 0xC2, 0xA3], isTerminator c = false) ∧
    pendingAfter [] (27 :: [48, 48, 48, 48, 48, 0xC2, 0xA3].take 6)
      = some [[48, 48, 48, 48, 48, 0xC2, 0xA3].getD 5 0] ∧
    (∀ t ∈ [Token.scalar 163], t.WellFormed) ∧
    keysOfInput (27 :: [48, 48, 48, 48, 48, 0xC2, 0xA3] ++ [13])
      = ([Token.scalar 163].map (fun t => (t.key, [])) ++ [(KeyEnter, [])],
          some ReadError.EOF) := by
  have hwf : ∀ t ∈ [Token.scalar 163], t.WellFormed := by
    intro t ht
    rw [List.mem_singleton] at ht
    subst ht
    show IsPlainScalar 163
    decide
  have h := keysOfInput_garbage [48, 48, 48, 48, 48, 0xC2, 0xA3] (by decide) (by decide)
  exact ⟨by decide, by decide, h.1, hwf,
    h.2.2.2 (Token.scalar 163) [] hwf (by decide) (by decide)⟩

/-- C7: `ReadKey` returns an error exactly when a read from the byte source fails before a key
has been resolved; it then returns that same error together with `KeyUnknown`, has consumed
exactly one failing read (no retry) and leaves the pending bytes in the buffer. In particular,
on every non-empty strict beginning of one of the twelve escape sequences or of the encoding of
a scalar, the first call on a fresh decoder returns end of input and no key. -/
theorem readKey_error :
    (∀ (t : TermKey) (e : ReadError), (ReadKey t).1.2 = some e ↔
      ∃ bs rd, t.reader = bytesReader bs ++ rd ∧ (pendingAfter t.inBuf bs).isSome = true ∧
        (ReadByte rd).1 = ReadResult.fail e) ∧
    (∀ (t : TermKey) (bs : List Nat) (rd : List ReadResult) (buf : List Nat) (e : ReadError),
      t.reader = bytesReader bs ++ rd → pendingAfter t.inBuf bs = some buf →
      (ReadByte rd).1 = ReadResult.fail e →
      ReadKey t = ((KeyUnknown, some e), { inBuf := buf, reader := (ReadByte rd).2 })) ∧
    (∀ p : List Nat, p ≠ [] →
      ((∃ s ∈ escapeSequences, p <+: s ∧ p ≠ s) ∨
        (∃ r, IsScalar r ∧ p <+: utf8.EncodeRune r ∧ p ≠ utf8.EncodeRune r)) →
      ReadKey (NewTermKey (bytesReader p))
        = ((KeyUnknown, some ReadError.EOF), { inBuf := p, reader := [] })) := by
  have part2 : ∀ (t : TermKey) (bs : List Nat) (rd : List ReadResult) (buf : List Nat)
      (e : ReadError), t.reader = bytesReader bs ++ rd → pendingAfter t.inBuf bs = some buf →
      (ReadByte rd).1 = ReadResult.fail e →
      ReadKey t = ((KeyUnknown, some e), { inBuf := buf, reader := (ReadByte rd).2 }) := by
    intro t bs rd buf e h1 h2 h3
    unfold ReadKey
    rw [h1]
    exact loop_fail bs rd t.inBuf buf e h2 h3
  refine ⟨?_, part2, ?_⟩
  · intro t e
    constructor
    · intro h
      exact loop_error t.reader t.inBuf e h
    · rintro ⟨bs, rd, h1, h2, h3⟩
      obtain ⟨buf, hbuf⟩ := Option.isSome_iff_exists.1 h2
      rw [part2 t bs rd buf e h1 hbuf h3]
  · intro p hne h
    have hinc : IncompleteKey p := by
      rcases h with ⟨s, hs, hp, hstrict⟩ | ⟨r, hr, hp, hstrict⟩
      · obtain ⟨n, hn, rfl⟩ := take_of_strict p s hp hstrict
        exact incompleteKey_of_check _ (escape_beginnings_check s hs n hn)
      · obtain ⟨n, hn, rfl⟩ := take_of_strict p _ hp hstrict
        exact incompleteKey_scalar_take r hr n hn
    exact loop_incomplete p hinc

theorem readKey_error_witness :
    ((ReadKey { inBuf := [], reader := [ReadResult.byte 27, ReadResult.byte 91,
        ReadResult.fail (ReadError.failure 5), ReadResult.byte 65] }).1.2
        = some (ReadError.failure 5) ↔
      ∃ bs rd, [ReadResult.byte 27, ReadResult.byte 91,
          ReadResult.fail (ReadError.failure 5), ReadResult.byte 65] = bytesReader bs ++ rd ∧
        (pendingAfter [] bs).isSome = true ∧
        (ReadByte rd).1 = ReadResult.fail (ReadError.failure 5)) ∧
    ReadKey { inBuf := [], reader := [ReadResult.byte 27, ReadResult.byte 91,
        ReadResult.fail (ReadError.failure 5), ReadResult.byte 65] }
      = ((KeyUnknown, some (ReadError.failure 5)),
          { inBuf := [27, 91], reader := [ReadResult.byte 65] }) ∧
    ReadKey (NewTermKey (bytesReader [0xE2, 0x82]))
      = ((KeyUnknown, some ReadError.EOF), { inBuf := [0xE2, 0x82], reader := [] }) :=
  ⟨readKey_error.1 _ _,
    readKey_error.2.1 _ [27, 91]
      [ReadResult.fail (ReadError.failure 5), ReadResult.byte 65] [27, 91]
      (ReadError.failure 5) rfl (by decide) rfl,
    readKey_error.2.2 [0xE2, 0x82] (by decide)
      (Or.inr ⟨0x20AC, by decide, by decide, by decide⟩)⟩

/-- C8: starting from the empty buffer of `NewTermKey`, the pending buffer holds at most six
bytes at the end of every loop iteration and whenever `ReadKey` returns, for every input and
every number of calls; inside an iteration the buffer, and the remainder the matcher returns,
hold at most seven bytes. -/
theorem inBuf_bounded :
    (∀ (buf : List Nat) (b : Nat), buf.length ≤ 6 →
      (buf ++ [b]).length ≤ 7 ∧ (bytesToKey (buf ++ [b]) false).2.length ≤ 7 ∧
        (ReadKey.body buf b).2.length ≤ 6) ∧
    (∀ bs : List Nat, (inBufAfter (NewTermKey (bytesReader bs)).inBuf bs).length ≤ 6) ∧
    (∀ (reader : List ReadResult) (n : Nat),
      (afterCalls n (NewTermKey reader)).inBuf.length ≤ 6) := by
  refine ⟨?_, ?_, ?_⟩
  · intro buf b h
    have h1 := bytesToKey_length_le (buf ++ [b]) false
    simp only [List.length_append, List.length_singleton] at h1 ⊢
    exact ⟨by omega, by omega, body_length buf b h⟩
  · intro bs
    exact inBufAfter_length bs [] (by simp)
  · intro reader n
    exact afterCalls_length n _ (by simp [NewTermKey])

theorem inBuf_bounded_witness :
    ([27, 48, 48, 48, 48, 48] ++ [48]).length ≤ 7 ∧
      (bytesToKey ([27, 48, 48, 48, 48, 48] ++ [48]) false).2.length ≤ 7 ∧
      (ReadKey.body [27, 48, 48, 48, 48, 48] 48).2.length ≤ 6 :=
  inBuf_bounded.1 [27, 48, 48, 48, 48, 48] 48 (by decide)

/-- C9 (counterexample): malformed input does not resolve to `KeyUnknown`. On `0x80 CR` the
only key read is Enter; on `0xC3 'A' CR` the only key read is `'A'` and Enter stays in the
pending buffer at the end of input. -/
theorem keysOfInput_malformed_counterexample :
    keysOfInput [0x80, 13] = ([(KeyEnter, [])], some ReadError.EOF) ∧
      keysOfInput [0xC3, 65, 13] = ([(65, [13])], some ReadError.EOF) := by
  decide

/-- C9 (amended): malformed input is consumed without any key. A byte that cannot begin a
valid UTF-8 encoding (`0x80..0xC1` or `0xF5` and above) followed by Enter reads as Enter alone,
then end of input. A lead byte of a multi-byte encoding followed by a byte `c` that is not a
continuation byte is dropped without a key and leaves `c` pending as the start of the next key;
with Enter after it no call returns `KeyUnknown`. -/
theorem keysOfInput_malformed :
    (∀ x : Nat, (0x80 ≤ x ∧ x ≤ 0xC1) ∨ 0xF5 ≤ x →
      keysOfInput [x, 13] = ([(KeyEnter, [])], some ReadError.EOF)) ∧
    (∀ l c : Nat, 0xC2 ≤ l → l ≤ 0xF4 → c < 0x80 ∨ 0xBF < c →
      pendingAfter [] [l, c] = some [c] ∧
        ∀ kb ∈ (keysOfInput [l, c, 13]).1, kb.1 ≠ KeyUnknown) := by
  constructor
  · intro x hx
    have hf : utf8.first x = utf8.xx := by
      rcases hx with hx | hx
      · exact utf8.first_xx_low hx.1 (by omega)
      · exact utf8.first_xx_high hx
    have hb := body_invalid x (by omega) hf
    have h13 : ReadKey.body [] 13 = (KeyEnter, []) := by decide
    have hne : KeyEnter ≠ utf8.RuneError := by decide
    rw [keysOfInput_eq]
    simp [bytesReader, keysFrom, hb, h13, hne]
  · intro l c h1 h2 hc
    obtain ⟨hx, hsz, _, _⟩ := utf8.lead_facts l h1 h2
    have hb1 : ReadKey.body [] l = (utf8.RuneError, [l]) := by
      have : bytesToKey ([] ++ [l]) false = (utf8.RuneError, [] ++ [l]) := by
        simp only [List.nil_append]
        rw [bytesToKey_high l [] false (by omega), utf8.FullRune_one l hsz]
        simp
      exact body_of_incomplete [] l this (by simp)
    have hb2 : ReadKey.body [l] c = (utf8.RuneError, [c]) := by
      simp [ReadKey.body, bytesToKey_lead_bad l c [] false h1 h2 hc]
    have hpend : pendingAfter [] [l, c] = some [c] := by
      simp [pendingAfter, hb1, hb2]
    refine ⟨hpend, ?_⟩
    intro kb hkb
    rw [keysOfInput_eq] at hkb
    have hk := keysFrom_pendingAfter [l, c] (bytesReader [13]) [] [c] hpend
    rw [← bytesReader_append] at hk
    simp only [List.cons_append, List.nil_append] at hk
    rw [hk] at hkb
    by_cases hr : (ReadKey.body [c] 13).1 = utf8.RuneError
    · simp [bytesReader, keysFrom, hr] at hkb
    · simp only [bytesReader, List.map_cons, List.map_nil, keysFrom, hr, if_false,
        List.mem_singleton] at hkb
      rw [hkb]
      intro hunk
      obtain ⟨tl, htl, y, hy, hterm⟩ := bytesToKey_unknown ([c] ++ [13]) false hunk
      simp only [List.singleton_append, List.cons.injEq] at htl
      obtain ⟨_, rfl⟩ := htl
      rw [List.mem_singleton] at hy
      subst hy
      exact absurd hterm (by decide)

theorem keysOfInput_malformed_witness :
    ((0x80 ≤ 0xFF ∧ 0xFF ≤ 0xC1) ∨ 0xF5 ≤ 0xFF) ∧
    keysOfInput [0xFF, 13] = ([(KeyEnter, [])], some ReadError.EOF) ∧
    (0xC2 ≤ 0xE2 ∧ 0xE2 ≤ 0xF4 ∧ (27 < 0x80 ∨ 0xBF < 27)) ∧
    (pendingAfter [] [0xE2, 27] = some [27] ∧
      ∀ kb ∈ (keysOfInput [0xE2, 27, 13]).1, kb.1 ≠ KeyUnknown) :=
  ⟨by decide, keysOfInput_malformed.1 0xFF (by decide), by decide,
    keysOfInput_malformed.2 0xE2 27 (by decide) (by decide) (by decide)⟩

/-- C10: for every one of the twelve escape sequences, every non-empty strict beginning `p` of
it and either value of the paste flag, `bytesToKey p flag` signals incomplete: it returns the
sentinel `utf8.RuneError` with the buffer `p` unchanged, never `KeyUnknown`. -/
theorem bytesToKey_escape_beginning (s p : List Nat) (flag : Bool) (hs : s ∈ escapeSequences)
    (hne : p ≠ []) (hp : p <+: s) (hstrict : p ≠ s) :
    bytesToKey p flag = (utf8.RuneError, p) ∧ (bytesToKey p flag).1 ≠ KeyUnknown := by
  obtain ⟨n, hn, rfl⟩ := take_of_strict p s hp hstrict
  have hpos : 0 < n := by
    rcases Nat.eq_zero_or_pos n with h0 | h0
    · subst h0; simp at hne
    · exact h0
  obtain ⟨h1, h2⟩ := escape_beginnings_both s hs n hn hpos
  have h : bytesToKey (s.take n) flag = (utf8.RuneError, s.take n) := by
    cases flag
    · exact h1
    · exact h2
  refine ⟨h, ?_⟩
  rw [h]
  show utf8.RuneError ≠ KeyUnknown
  decide

theorem bytesToKey_escape_beginning_witness :
    [27, 91, 49, 59, 51, 67] ∈ escapeSequences ∧ [27, 91, 49, 59] ≠ [] ∧
    [27, 91, 49, 59] <+: [27, 91, 49, 59, 51, 67] ∧ [27, 91, 49, 59] ≠ [27, 91, 49, 59, 51, 67] ∧
    (bytesToKey [27, 91, 49, 59] true = (utf8.RuneError, [27, 91, 49, 59]) ∧
      (bytesToKey [27, 91, 49, 59] true).1 ≠ KeyUnknown) :=
  ⟨by decide, by decide, by decide, by decide,
    bytesToKey_escape_beginning [27, 91, 49, 59, 51, 67] [27, 91, 49, 59] true (by decide)
      (by decide) (by decide) (by decide)⟩

/-- C11: for every buffer that starts with ESC and is not matched by a CSI or paste-marker rule
under the given paste flag: if the buffer holds a byte in `a-z`, `A-Z` or `~`, `bytesToKey`
returns `KeyUnknown` and the remainder is exactly the bytes after the first such byte; if it
holds none, `bytesToKey` returns the sentinel `utf8.RuneError` and the buffer unchanged. -/
theorem bytesToKey_fallback (tl : List Nat) (flag : Bool)
    (hno : ∀ sk ∈ recognizedFor flag, (27 :: tl).take sk.1.length ≠ sk.1) :
    (∀ init z rest, 27 :: tl = init ++ z :: rest → (∀ c ∈ init, isTerminator c = false) →
      isTerminator z = true → bytesToKey (27 :: tl) flag = (KeyUnknown, rest)) ∧
    ((∀ c ∈ 27 :: tl, isTerminator c = false) →
      bytesToKey (27 :: tl) flag = (utf8.RuneError, 27 :: tl)) := by
  have hfb : bytesToKey (27 :: tl) flag = fallbackKey (27 :: tl) := by
    rcases bytesToKey_esc tl flag with ⟨sk, hsk, htake, _⟩ | hr
    · exact absurd htake (hno sk hsk)
    · exact hr
  constructor
  · intro init z rest hb hinit hz
    rw [hfb, fallbackKey, hb, scanTerminator_first init z rest hinit hz]
  · intro hall
    rw [hfb, fallbackKey, scanTerminator_none _ hall]

theorem bytesToKey_fallback_witness :
    (∀ sk ∈ recognizedFor false, (27 :: [91, 53, 126, 13]).take sk.1.length ≠ sk.1) ∧
    bytesToKey (27 :: [91, 53, 126, 13]) false = (KeyUnknown, [13]) :=
  ⟨by decide,
    (bytesToKey_fallback [91, 53, 126, 13] false (by decide)).1 [27, 91, 53] 126 [13] rfl
      (by decide) (by decide)⟩

/-- C12: with the paste flag off, for every byte sequence `rest`, `ESC [ L` followed by `rest`
resolves to Up, Down, Right, Left, Home, End, TabOut for `L` = `A`, `B`, `C`, `D`, `H`, `F`,
`Z`, consuming three bytes; `ESC [ 3 ~` resolves to `KeyDel`, consuming four; `ESC [ 1 ; 3 C`
and `ESC [ 1 ; 3 D` resolve to `KeyAltRight` and `KeyAltLeft`, consuming six; the remainder is
exactly `rest`. -/
theorem bytesToKey_csi (rest : List Nat) :
    bytesToKey (27 :: 91 :: 65 :: rest) false = (KeyUp, rest) ∧
    bytesToKey (27 :: 91 :: 66 :: rest) false = (KeyDown, rest) ∧
    bytesToKey (27 :: 91 :: 67 :: rest) false = (KeyRight, rest) ∧
    bytesToKey (27 :: 91 :: 68 :: rest) false = (KeyLeft, rest) ∧
    bytesToKey (27 :: 91 :: 72 :: rest) false = (KeyHome, rest) ∧
    bytesToKey (27 :: 91 :: 70 :: rest) false = (KeyEnd, rest) ∧
    bytesToKey (27 :: 91 :: 90 :: rest) false = (KeyTabOut, rest) ∧
    bytesToKey (27 :: 91 :: 51 :: 126 :: rest) false = (KeyDel, rest) ∧
    bytesToKey (27 :: 91 :: 49 :: 59 :: 51 :: 67 :: rest) false = (KeyAltRight, rest) ∧
    bytesToKey (27 :: 91 :: 49 :: 59 :: 51 :: 68 :: rest) false = (KeyAltLeft, rest) := by
  refine ⟨?_, ?_, ?_, ?_, ?_, ?_, ?_, ?_, ?_, ?_⟩ <;> simp [bytesToKey, KeyEscape]

/-- C13: for every byte sequence `rest`, with the paste flag off the bytes 1, 2, 5, 6, 8, 11,
12, 14, 16, 23 at the front of the buffer resolve to Home, Left, End, Right, Backspace (127),
DeleteLine, ClearScreen, Down, Up, DeleteWord, consuming one byte; with the paste flag on the
same byte is not remapped and is returned as its own code point, consuming one byte. -/
theorem bytesToKey_shortcutTable (ck : Nat × Nat) (hck : ck ∈ shortcutTable) (rest : List Nat) :
    bytesToKey (ck.1 :: rest) false = (ck.2, rest) ∧
      bytesToKey (ck.1 :: rest) true = (ck.1, rest) := by
  obtain ⟨h1, h2, h3, h4⟩ := shortcutTable_spec ck hck
  constructor
  · rw [bytesToKey_shortcut ck.1 rest h1, h2]
  · rw [bytesToKey_text ck.1 rest true (Or.inl rfl) h4, utf8.FullRune_ascii ck.1 rest h3,
      utf8.DecodeRune_ascii ck.1 rest h3]
    simp

theorem bytesToKey_shortcutTable_witness :
    (8, KeyBackspace) ∈ shortcutTable ∧
    (bytesToKey ((8, KeyBackspace).1 :: [97, 13]) false = ((8, KeyBackspace).2, [97, 13]) ∧
      bytesToKey ((8, KeyBackspace).1 :: [97, 13]) true = ((8, KeyBackspace).1, [97, 13])) :=
  ⟨by decide, bytesToKey_shortcutTable (8, KeyBackspace) (by decide) [97, 13]⟩

/-- C14: for every byte sequence `rest`, the start marker followed by `rest` resolves to
`KeyPasteStart` with the paste flag off and the end marker followed by `rest` resolves to
`KeyPasteEnd` with the paste flag on, each consuming exactly the six bytes of the marker; with
the paste flag on the start marker resolves to `KeyUnknown`, with the paste flag off the end
marker resolves to `KeyUnknown`, and no buffer at all yields `KeyPasteStart` with the flag on or
`KeyPasteEnd` with the flag off. -/
theorem bytesToKey_pasteMarkers :
    (∀ rest, bytesToKey (pasteStart ++ rest) false = (KeyPasteStart, rest)) ∧
    (∀ rest, bytesToKey (pasteEnd ++ rest) true = (KeyPasteEnd, rest)) ∧
    (∀ rest, bytesToKey (pasteStart ++ rest) true = (KeyUnknown, rest)) ∧
    (∀ rest, bytesToKey (pasteEnd ++ rest) false = (KeyUnknown, rest)) ∧
    (∀ b, (bytesToKey b true).1 ≠ KeyPasteStart) ∧
    (∀ b, (bytesToKey b false).1 ≠ KeyPasteEnd) := by
  refine ⟨?_, ?_, ?_, ?_, bytesToKey_on_key, fun b => (bytesToKey_off_key b).2⟩
  · intro rest
    simp [bytesToKey, KeyEscape, pasteStart]
  · intro rest
    simp [bytesToKey, KeyEscape, pasteEnd]
  · intro rest
    simp [bytesToKey, KeyEscape, pasteStart, pasteEnd, scanTerminator, isTerminator]
  · intro rest
    simp [bytesToKey, KeyEscape, pasteStart, pasteEnd, scanTerminator, isTerminator]

/-- C15: for every buffer and paste flag, if `bytesToKey` returns a key other than the sentinel
`utf8.RuneError`, the returned remainder is a proper suffix of the buffer: the buffer is a
non-empty consumed part followed by the remainder, which is strictly shorter than the buffer. -/
theorem bytesToKey_proper_suffix (b : List Nat) (flag : Bool)
    (h : (bytesToKey b flag).1 ≠ utf8.RuneError) :
    ∃ consumed, consumed ≠ [] ∧ b = consumed ++ (bytesToKey b flag).2 ∧
      (bytesToKey b flag).2.length < b.length := by
  obtain ⟨n, hn, hdrop⟩ := bytesToKey_consumed b flag h
  have hb : b ≠ [] := by
    rintro rfl
    exact h rfl
  have hlen : 0 < b.length := List.length_pos.2 hb
  refine ⟨b.take n, ?_, ?_, ?_⟩
  · intro hnil
    have := congrArg List.length hnil
    simp only [List.length_take, List.length_nil] at this
    omega
  · rw [hdrop, List.take_append_drop]
  · rw [hdrop, List.length_drop]
    omega

theorem bytesToKey_proper_suffix_witness :
    (bytesToKey [0xCE, 0x9E, 13] false).1 ≠ utf8.RuneError ∧
    ∃ consumed, consumed ≠ [] ∧ [0xCE, 0x9E, 13] = consumed ++ (bytesToKey [0xCE, 0x9E, 13] false).2 ∧
      (bytesToKey [0xCE, 0x9E, 13] false).2.length < [0xCE, 0x9E, 13].length :=
  ⟨by decide, bytesToKey_proper_suffix [0xCE, 0x9E, 13] false (by decide)⟩

/-- C16: the sixteen named keys `KeyUnknown` to `KeyDel` are pairwise distinct values of the
surrogate range `0xD800..0xDFFF`; for every buffer and paste flag the UTF-8 decoding path of
`bytesToKey` (first byte not ESC and not a remapped control shortcut) never returns a value of
that range; hence a key of the reserved range is one of the named keys and comes from a buffer
that starts with ESC or with a remapped control byte. -/
theorem namedKeys_reserved :
    (namedKeys.Nodup ∧ namedKeys.length = 16 ∧ ∀ k ∈ namedKeys, 0xD800 ≤ k ∧ k ≤ 0xDFFF) ∧
    (∀ (x : Nat) (tl : List Nat) (flag : Bool), x ≠ KeyEscape →
      (flag = true ∨ isShortcut x = false) →
      ¬ (0xD800 ≤ (bytesToKey (x :: tl) flag).1 ∧ (bytesToKey (x :: tl) flag).1 ≤ 0xDFFF)) ∧
    (∀ (b : List Nat) (flag : Bool),
      0xD800 ≤ (bytesToKey b flag).1 ∧ (bytesToKey b flag).1 ≤ 0xDFFF →
      (bytesToKey b flag).1 ∈ namedKeys ∧
        ∃ x tl, b = x :: tl ∧ (x = 27 ∨ (flag = false ∧ isShortcut x = true))) := by
  refine ⟨by decide, ?_, bytesToKey_reserved⟩
  intro x tl flag hx hc hrange
  obtain ⟨_, y, tl1, hb, hy⟩ := bytesToKey_reserved (x :: tl) flag hrange
  simp only [List.cons.injEq] at hb
  obtain ⟨rfl, _⟩ := hb
  rcases hy with rfl | ⟨hf, hs⟩
  · exact hx rfl
  · rcases hc with hc | hc
    · rw [hf] at hc; exact absurd hc (by decide)
    · rw [hs] at hc; exact absurd hc (by decide)

theorem namedKeys_reserved_witness :
    (0xED : Nat) ≠ KeyEscape ∧ ((true = true) ∨ isShortcut 0xED = false) ∧
    ¬ (0xD800 ≤ (bytesToKey (0xED :: [0xA0, 0x84]) true).1 ∧
      (bytesToKey (0xED :: [0xA0, 0x84]) true).1 ≤ 0xDFFF) :=
  ⟨by decide, by decide, namedKeys_reserved.2.1 0xED [0xA0, 0x84] true (by decide) (by decide)⟩

/-- C17 (counterexample): the ASCII control keys Tab, Enter, Escape and Backspace are not found:
`IsRemapped` consults `keyMap` only, although `standardMap` names them. -/
theorem IsRemapped_counterexample :
    IsRemapped KeyTab = ("", false) ∧ IsRemapped KeyEnter = ("", false) ∧
      IsRemapped KeyEscape = ("", false) ∧ IsRemapped KeyBackspace = ("", false) ∧
      standardMap.map Prod.fst = [KeyTab, KeyEnter, KeyEscape, KeyBackspace] := by
  decide

/-- C17 (amended): `IsRemapped r` returns the name and `true` exactly when `r` is one of the
sixteen named keys of the reserved range, with the name `keyMap` gives it, and the empty string
and `false` for every other rune, the ASCII control keys Tab, Enter, Escape and Backspace
included. -/
theorem IsRemapped_spec (r : Nat) :
    ((IsRemapped r).2 = true ↔ r ∈ namedKeys) ∧
    (r ∉ namedKeys → IsRemapped r = ("", false)) ∧
    (∀ name, (r, name) ∈ keyMap → IsRemapped r = (name, true)) ∧
    keyMap.map Prod.fst = namedKeys := by
  refine ⟨?_, IsRemapped_other r, fun name h => IsRemapped_named (r, name) h, by decide⟩
  constructor
  · intro h
    by_contra hn
    rw [IsRemapped_other r hn] at h
    exact absurd h (by decide)
  · intro h
    have hk : r ∈ keyMap.map Prod.fst := by
      have e : keyMap.map Prod.fst = namedKeys := by decide
      rw [e]; exact h
    obtain ⟨kn, hkn, rfl⟩ := List.mem_map.1 hk
    rw [IsRemapped_named kn hkn]

theorem IsRemapped_spec_witness :
    (KeyDel, "Delete") ∈ keyMap ∧ IsRemapped KeyDel = ("Delete", true) ∧
    (97 : Nat) ∉ namedKeys ∧ IsRemapped 97 = ("", false) :=
  ⟨by decide, (IsRemapped_spec KeyDel).2.2.1 "Delete" (by decide), by decide,
    (IsRemapped_spec 97).2.1 (by decide)⟩

/-- C18 (counterexample): when the buffer reaches the seven bytes `ESC 0 0 0 0 0 1` after an
incomplete match, `ReadKey` keeps the single byte `1`, not the six most recent bytes
`0 0 0 0 0 1`. -/
theorem body_trim_counterexample :
    ReadKey.body [27, 48, 48, 48, 48, 48] 49 = (utf8.RuneError, [49]) ∧
      (ReadKey.body [27, 48, 48, 48, 48, 48] 49).2
        ≠ ([27, 48, 48, 48, 48, 48] ++ [49]).drop (([27, 48, 48, 48, 48, 48] ++ [49]).length - 6)
      := by
  decide

/-- C18 (amended): whenever the buffer of a decoder created by `NewTermKey` (at most six bytes
pending) exceeds six bytes after the matcher ran, the match was incomplete and left all seven
bytes in place, and `ReadKey` discards the six oldest bytes and keeps only the bytes after
them, that is the single most recent byte, before continuing. -/
theorem body_trim (buf : List Nat) (b : Nat) (hlen : buf.length ≤ 6)
    (hgt : (bytesToKey (buf ++ [b]) false).2.length > 6) :
    bytesToKey (buf ++ [b]) false = (utf8.RuneError, buf ++ [b]) ∧
      ReadKey.body buf b = (utf8.RuneError, (buf ++ [b]).drop 6) ∧
      (buf ++ [b]).drop 6 = [b] := by
  obtain ⟨n, hn⟩ := bytesToKey_drop (buf ++ [b]) false
  have hl : (bytesToKey (buf ++ [b]) false).2.length = buf.length + 1 - n := by
    rw [hn, List.length_drop]; simp
  have hn0 : n = 0 := by omega
  have hb6 : buf.length = 6 := by omega
  subst hn0
  rw [List.drop_zero] at hn
  have hkey : (bytesToKey (buf ++ [b]) false).1 = utf8.RuneError := by
    by_contra hk
    obtain ⟨m, hm, hdrop⟩ := bytesToKey_consumed (buf ++ [b]) false hk
    have := congrArg List.length hdrop
    rw [hn, List.length_drop] at this
    simp only [List.length_append, List.length_singleton] at this
    omega
  have hfull : bytesToKey (buf ++ [b]) false = (utf8.RuneError, buf ++ [b]) :=
    Prod.ext hkey hn
  have hdrop6 : (buf ++ [b]).drop 6 = [b] := by
    rw [← hb6, List.drop_left]
  refine ⟨hfull, ?_, hdrop6⟩
  have hlong : (buf ++ [b]).length > 6 := by
    simp only [List.length_append, List.length_singleton]; omega
  simp only [ReadKey.body, hfull, hlong, if_true]

theorem body_trim_witness :
    [27, 48, 48, 48, 48, 48].length ≤ 6 ∧
    (bytesToKey ([27, 48, 48, 48, 48, 48] ++ [49]) false).2.length > 6 ∧
    (bytesToKey ([27, 48, 48, 48, 48, 48] ++ [49]) false
        = (utf8.RuneError, [27, 48, 48, 48, 48, 48] ++ [49]) ∧
      ReadKey.body [27, 48, 48, 48, 48, 48] 49
        = (utf8.RuneError, ([27, 48, 48, 48, 48, 48] ++ [49]).drop 6) ∧
      ([27, 48, 48, 48, 48, 48] ++ [49]).drop 6 = [49]) :=
  ⟨by decide, by decide, body_trim [27, 48, 48, 48, 48, 48] 49 (by decide) (by decide)⟩

/-- C19 (counterexample): on `b = ESC 0 0 0 0 0 0 ~` the matcher is incomplete with the buffer
unchanged on every non-empty strict beginning of `b` and resolves `b` to `KeyUnknown` with
nothing left, yet a decoder with an empty buffer that is fed `b` one byte at a time returns
`'0'` with `~` left pending: the cap trims the buffer at the seventh byte. -/
theorem bytesToKey_earliest_counterexample :
    [27, 48, 48, 48, 48, 48, 48, 126] ≠ [] ∧
    (∀ p, p ≠ [] → p <+: [27, 48, 48, 48, 48, 48, 48, 126] →
      p ≠ [27, 48, 48, 48, 48, 48, 48, 126] → bytesToKey p false = (utf8.RuneError, p)) ∧
    bytesToKey [27, 48, 48, 48, 48, 48, 48, 126] false = (KeyUnknown, []) ∧
    ReadKey (NewTermKey (bytesReader [27, 48, 48, 48, 48, 48, 48, 126]))
      = ((48, none), { inBuf := [126], reader := [] }) := by
  refine ⟨by decide, ?_, by decide, by decide⟩
  intro p hp hpfx hstrict
  obtain ⟨n, hn, rfl⟩ := take_of_strict p _ hpfx hstrict
  simp only [List.length_cons, List.length_nil] at hn
  have h8 : n = 0 ∨ n = 1 ∨ n = 2 ∨ n = 3 ∨ n = 4 ∨ n = 5 ∨ n = 6 ∨ n = 7 := by omega
  rcases h8 with rfl | rfl | rfl | rfl | rfl | rfl | rfl | rfl
  · exact absurd rfl hp
  all_goals decide

/-- C19 (amended): earliest resolution leaves nothing behind. For every non-empty buffer `b`
such that `bytesToKey p false = (utf8.RuneError, p)` for every non-empty strict beginning `p`
of `b`, if `bytesToKey b false` returns a key other than `utf8.RuneError`, the returned
remainder is empty; and when `b` has at most seven bytes, a decoder with an empty buffer that is
fed `b` one byte at a time returns that key with an empty buffer. -/
theorem bytesToKey_earliest (b : List Nat) (hne : b ≠ [])
    (hpre : ∀ p, p ≠ [] → p <+: b → p ≠ b → bytesToKey p false = (utf8.RuneError, p))
    (hk : (bytesToKey b false).1 ≠ utf8.RuneError) :
    (bytesToKey b false).2 = [] ∧
      (b.length ≤ 7 → ∀ tail : List ReadResult,
        ReadKey (NewTermKey (bytesReader b ++ tail))
          = (((bytesToKey b false).1, none), { inBuf := [], reader := tail })) := by
  have htake : ∀ n, 0 < n → n < b.length →
      bytesToKey (b.take n) false = (utf8.RuneError, b.take n) := by
    intro n hn hlt
    apply hpre
    · intro hnil
      have := congrArg List.length hnil
      simp only [List.length_take, List.length_nil] at this
      omega
    · exact List.take_prefix n b
    · intro heq
      have := congrArg List.length heq
      simp only [List.length_take] at this
      omega
  have hrem := bytesToKey_earliest_take b htake hk
  refine ⟨hrem, ?_⟩
  intro hlen tail
  have hc : CompleteKey b (bytesToKey b false).1 :=
    ⟨hne, hlen, hk, Prod.ext rfl hrem, htake⟩
  exact loop_complete b _ hc tail

theorem bytesToKey_earliest_witness :
    [0xE2, 0x82, 0xAC] ≠ [] ∧
    (∀ p, p ≠ [] → p <+: [0xE2, 0x82, 0xAC] → p ≠ [0xE2, 0x82, 0xAC] →
      bytesToKey p false = (utf8.RuneError, p)) ∧
    (bytesToKey [0xE2, 0x82, 0xAC] false).1 ≠ utf8.RuneError ∧
    ((bytesToKey [0xE2, 0x82, 0xAC] false).2 = [] ∧
      ([0xE2, 0x82, 0xAC].length ≤ 7 → ∀ tail : List ReadResult,
        ReadKey (NewTermKey (bytesReader [0xE2, 0x82, 0xAC] ++ tail))
          = (((bytesToKey [0xE2, 0x82, 0xAC] false).1, none),
              { inBuf := [], reader := tail }))) := by
  have hpre : ∀ p, p ≠ [] → p <+: [0xE2, 0x82, 0xAC] → p ≠ [0xE2, 0x82, 0xAC] →
      bytesToKey p false = (utf8.RuneError, p) := by
    intro p hp hpfx hstrict
    obtain ⟨n, hn, rfl⟩ := take_of_strict p _ hpfx hstrict
    simp only [List.length_cons, List.length_nil] at hn
    have h3 : n = 0 ∨ n = 1 ∨ n = 2 := by omega
    rcases h3 with rfl | rfl | rfl
    · exact absurd rfl hp
    · decide
    · decide
  exact ⟨by decide, hpre, by decide,
    bytesToKey_earliest [0xE2, 0x82, 0xAC] (by decide) hpre (by decide)⟩

/-- C20: for every input and every pending-buffer state, `ReadKey` never returns, with a nil
error, `KeyEscape` (27), `KeyPasteEnd` or `utf8.RuneError` (U+FFFD): a lone ESC yields no key,
the end marker `ESC[201~` is read as `KeyUnknown`, and the encoding of U+FFFD yields no key. -/
theorem readKey_never :
    (∀ t : TermKey, (ReadKey t).1.2 = none →
      (ReadKey t).1.1 ≠ KeyEscape ∧ (ReadKey t).1.1 ≠ KeyPasteEnd ∧
        (ReadKey t).1.1 ≠ utf8.RuneError) ∧
    keysOfInput [27] = ([], some ReadError.EOF) ∧
    keysOfInput pasteEnd = ([(KeyUnknown, [])], some ReadError.EOF) ∧
    keysOfInput (utf8.EncodeRune 0xFFFD) = ([], some ReadError.EOF) := by
  refine ⟨?_, by decide, by decide, by decide⟩
  intro t h
  obtain ⟨hne, b, hb⟩ := loop_key t.reader t.inBuf h
  have hkey : (ReadKey t).1.1 = (bytesToKey b false).1 := hb
  obtain ⟨h1, h2⟩ := bytesToKey_off_key b
  refine ⟨?_, ?_, hne⟩
  · rw [hkey]; exact h1
  · rw [hkey]; exact h2

theorem readKey_never_witness :
    (ReadKey (TermKey.mk [27, 91, 50, 48, 49] [ReadResult.byte 126])).1.2 = none ∧
    ((ReadKey (TermKey.mk [27, 91, 50, 48, 49] [ReadResult.byte 126])).1.1 ≠ KeyEscape ∧
      (ReadKey (TermKey.mk [27, 91, 50, 48, 49] [ReadResult.byte 126])).1.1 ≠ KeyPasteEnd ∧
      (ReadKey (TermKey.mk [27, 91, 50, 48, 49] [ReadResult.byte 126])).1.1
        ≠ utf8.RuneError) :=
  ⟨by decide, readKey_never.1 _ (by decide)⟩
